import Mathlib

/-!
Verification development for the cograph-generator repository.

The repository enumerates canonical cotree structures of cographs
(`generate_all_cotree_structures` in `cograph_generator/generator.py`),
encodes the derived graphs in graph6 format, and runs a batched
streaming pipeline (`generate_cographs_final_g6`, `generate_cographs_g6`).
`parse_cotree` (in `visualization.py`) parses a serialized cotree back
into edges and node metadata.

Helper modules of the repository (`utils.py`, `adjacency_g6.py`,
`structures.py`) are not available; their functions are modelled from the
specification and marked as such in their doc comments.
-/

/-- The two cograph operators appearing in canonical structures:
`J` (complete join) and `U` (disjoint union). -/
inductive CoOp where
  | J : CoOp
  | U : CoOp
deriving DecidableEq

/-- Character used for an operator in the canonical structure text. -/
def CoOp.char : CoOp → Char
  | .J => 'J'
  | .U => 'U'

/-- A cotree: leaves are single vertices, internal nodes carry an operator
and an ordered list of children.  This is the tree underlying the canonical
structure strings such as `J(U(a,a),a)`. -/
inductive Cotree where
  | leaf : Cotree
  | node : CoOp → List Cotree → Cotree

mutual
/-- Serialization of a cotree to its canonical structure text (as a
character list): `a` for a leaf, `X(c1,...,ck)` for an internal node. -/
def serL : Cotree → List Char
  | .leaf => ['a']
  | .node op cs => op.char :: '(' :: serLs cs ++ [')']

/-- Serialization of a child list, comma-separated. -/
def serLs : List Cotree → List Char
  | [] => []
  | [t] => serL t
  | t :: t' :: ts => serL t ++ ',' :: serLs (t' :: ts)
end

/-- Canonical structure string of a cotree. -/
def serialize (t : Cotree) : String := String.mk (serL t)

mutual
/-- Number of leaves of a cotree (= number of vertices of the derived graph). -/
def leafCount : Cotree → Nat
  | .leaf => 1
  | .node _ cs => leafCountL cs

/-- Total number of leaves of a list of cotrees. -/
def leafCountL : List Cotree → Nat
  | [] => 0
  | t :: ts => leafCount t + leafCountL ts
end

/-- Induction principle for `Cotree` giving the inductive hypothesis for
every member of a node's child list. -/
theorem Cotree.indOn (P : Cotree → Prop)
    (hleaf : P .leaf)
    (hnode : ∀ op cs, (∀ t ∈ cs, P t) → P (.node op cs)) : ∀ t, P t := by
  intro t
  induction t using Cotree.rec (motive_2 := fun cs => ∀ t ∈ cs, P t) with
  | leaf => exact hleaf
  | node op cs ih => exact hnode op cs ih
  | nil =>
    rename_i u hu
    exact absurd hu (List.not_mem_nil u)
  | cons t ts iht ihts =>
    rename_i u hu
    cases hu with
    | head => exact iht
    | tail _ h => exact ihts u h

theorem serL_ne_nil (t : Cotree) : serL t ≠ [] := by
  cases t <;> simp [serL]

theorem serLs_single (t : Cotree) : serLs [t] = serL t := rfl

theorem serLs_cons₂ (t t' : Cotree) (ts : List Cotree) :
    serLs (t :: t' :: ts) = serL t ++ ',' :: serLs (t' :: ts) := rfl

/-! ### `_split_args` from `visualization.py`

State of the comma-splitting fold: accumulated results, parenthesis
balance, and the piece currently being built. -/

structure SplitState where
  result : List (List Char)
  balance : Int
  current : List Char

/-- One character step of `_split_args`: a comma at balance 0 closes the
current piece; otherwise the character is appended and the balance adjusted
on parentheses. -/
def splitStep (st : SplitState) (ch : Char) : SplitState :=
  if ch = ',' ∧ st.balance = 0 then
    { result := st.result ++ [st.current], balance := st.balance, current := [] }
  else
    { result := st.result,
      balance :=
        if ch = '(' then st.balance + 1
        else if ch = ')' then st.balance - 1
        else st.balance,
      current := st.current ++ [ch] }

/-- `_split_args` from `visualization.py`: split a character list at
top-level commas, tracking parenthesis balance. -/
def _split_args (s : List Char) : List (List Char) :=
  let st := s.foldl splitStep ⟨[], 0, []⟩
  st.result ++ [st.current]

/-- Folding `splitStep` over a serialized cotree starting at non-negative
balance appends the whole serialization to the current piece and leaves
result and balance unchanged. -/
theorem splitRun (t : Cotree) :
    ∀ st : SplitState, 0 ≤ st.balance →
      (serL t).foldl splitStep st =
        { st with current := st.current ++ serL t } := by
  induction t using Cotree.rec
    (motive_2 := fun cs => ∀ st : SplitState, 1 ≤ st.balance →
      (serLs cs).foldl splitStep st =
        { st with current := st.current ++ serLs cs }) with
  | leaf =>
    intro st h
    simp [serL, splitStep]
  | node op cs ih =>
    intro st h
    have hop : op.char ≠ ',' := by cases op <;> decide
    have hopl : op.char ≠ '(' := by cases op <;> decide
    have hopr : op.char ≠ ')' := by cases op <;> decide
    simp only [serL, List.foldl_cons, List.foldl_append]
    rw [show splitStep st op.char =
        { st with current := st.current ++ [op.char] } by
      simp [splitStep, hop, hopl, hopr]]
    rw [show splitStep { st with current := st.current ++ [op.char] } '(' =
        { st with balance := st.balance + 1,
                  current := st.current ++ [op.char] ++ ['('] } by
      simp [splitStep]]
    rw [ih _ (by simp; omega)]
    simp [splitStep]
  | nil =>
    rename_i st h
    simp [serLs]
  | cons t ts iht ihts =>
    rename_i st h
    cases ts with
    | nil =>
      simpa [serLs] using iht st (by omega)
    | cons t' ts' =>
      rw [serLs_cons₂, List.foldl_append, iht st (by omega)]
      simp only [List.foldl_cons]
      rw [show splitStep { st with current := st.current ++ serL t } ',' =
          { st with current := st.current ++ serL t ++ [','] } by
        simp [splitStep]; omega]
      rw [ihts _ (by simpa using h)]
      simp

/-- Folding `splitStep` over the comma-joined serializations of a nonempty
child list, starting at balance 0, yields exactly one piece per child. -/
theorem splitGo : ∀ cs : List Cotree, cs ≠ [] → ∀ res : List (List Char),
    (let st := (serLs cs).foldl splitStep ⟨res, 0, []⟩
     st.result ++ [st.current]) = res ++ cs.map serL := by
  intro cs
  induction cs with
  | nil => intro h; exact absurd rfl h
  | cons t ts ih =>
    intro _ res
    cases ts with
    | nil =>
      have := splitRun t ⟨res, 0, []⟩ (by simp)
      simp [serLs, this]
    | cons t' ts' =>
      rw [serLs_cons₂]
      simp only [List.foldl_append, List.foldl_cons]
      rw [splitRun t ⟨res, 0, []⟩ (by simp)]
      rw [show splitStep { result := res, balance := 0, current := [] ++ serL t } ',' =
          ⟨res ++ [serL t], 0, []⟩ by simp [splitStep]]
      have := ih (by simp) (res ++ [serL t])
      simp only at this
      rw [this]
      simp

/-- `_split_args` applied to the serialization of a nonempty child list
recovers the children's serializations. -/
theorem split_args_serLs (cs : List Cotree) (h : cs ≠ []) :
    _split_args (serLs cs) = cs.map serL := by
  have := splitGo cs h []
  simpa [_split_args] using this

/-- Serialization of child lists is determined by the members'
serializations. -/
theorem serLs_congr : ∀ cs ds : List Cotree,
    cs.map serL = ds.map serL → serLs cs = serLs ds := by
  intro cs
  induction cs with
  | nil => intro ds h; cases ds <;> simp_all [serLs]
  | cons t ts ih =>
    intro ds h
    cases ds with
    | nil => simp at h
    | cons d ds' =>
      simp only [List.map_cons, List.cons.injEq] at h
      obtain ⟨h1, h2⟩ := h
      cases ts with
      | nil => cases ds' with
        | nil => simp [serLs, h1]
        | cons => simp at h2
      | cons t' ts' => cases ds' with
        | nil => simp at h2
        | cons d' ds'' =>
          rw [serLs_cons₂, serLs_cons₂, h1, ih _ h2]

/-- The operator character determines the operator. -/
theorem CoOp.char_inj : ∀ {a b : CoOp}, a.char = b.char → a = b := by
  intro a b h
  cases a <;> cases b <;> first | rfl | exact absurd h (by decide)

/-- The canonical serialization is injective on cotrees. -/
theorem serL_inj : ∀ t u : Cotree, serL t = serL u → t = u := by
  intro t
  induction t using Cotree.rec
    (motive_2 := fun cs => ∀ ds : List Cotree, serLs cs = serLs ds → cs = ds) with
  | leaf =>
    intro u h
    cases u with
    | leaf => rfl
    | node op cs => simp [serL] at h
  | node op cs ih =>
    intro u h
    cases u with
    | leaf => simp [serL] at h
    | node op' cs' =>
      simp only [serL] at h
      injection h with h1 h
      injection h with _ h2
      have hcs : serLs cs = serLs cs' := List.append_cancel_right h2
      rw [CoOp.char_inj h1, ih cs' hcs]
  | nil =>
    rename_i ds h
    cases ds with
    | nil => rfl
    | cons d ds' =>
      exfalso
      have : serLs (d :: ds') ≠ [] := by
        cases ds' with
        | nil => simpa [serLs] using serL_ne_nil d
        | cons d' ds'' =>
          rw [serLs_cons₂]
          simp only [ne_eq, List.append_eq_nil]
          intro hc
          exact serL_ne_nil d hc.1
      exact this h.symm
  | cons t ts iht ihts =>
    rename_i ds h
    have hne : serLs (t :: ts) ≠ [] := by
      cases ts with
      | nil => simpa [serLs] using serL_ne_nil t
      | cons t' ts'' =>
        rw [serLs_cons₂]
        simp only [ne_eq, List.append_eq_nil]
        intro hc
        exact serL_ne_nil t hc.1
    cases ds with
    | nil => exact absurd h.symm (by simpa [serLs] using hne)
    | cons d ds' =>
      have hmaps : (t :: ts).map serL = (d :: ds').map serL := by
        rw [← split_args_serLs (t :: ts) (by simp),
            ← split_args_serLs (d :: ds') (by simp), h]
      simp only [List.map_cons, List.cons.injEq] at hmaps
      obtain ⟨h1, h2⟩ := hmaps
      have hds : serLs ts = serLs ds' := serLs_congr ts ds' h2
      rw [iht d h1, ihts ds' hds]

/-- Decidable equality of cotrees, via injectivity of serialization. -/
instance : DecidableEq Cotree := fun a b =>
  decidable_of_iff (serL a = serL b) ⟨serL_inj a b, fun h => h ▸ rfl⟩

theorem serialize_inj {t u : Cotree} (h : serialize t = serialize u) : t = u :=
  serL_inj t u (congrArg String.data h)

/-! ### Partition enumeration

Modelled from the spec: `_generate_all_unique_integer_partitions` lives in
`cograph_generator/utils.py`, which is missing from the sources. -/

/-- Fuel-indexed partition worker: partitions of `n` into non-increasing
positive parts each at most `m`, largest first part first
(reverse-lexicographic, the spec's canonical order). -/
def partsBF : Nat → Nat → Nat → List (List Nat)
  | 0, _, _ => []
  | fuel+1, n, m =>
    if n = 0 then [[]]
    else if m = 0 then []
    else
      (if m ≤ n then (partsBF fuel (n - m) m).map (m :: ·) else []) ++
      partsBF fuel n (m - 1)

/-- Modelled from the spec: `_generate_all_unique_integer_partitions` from
`cograph_generator/utils.py` (missing from the sources).  Per §3/§4.1 it
produces every integer partition of `n` as a non-increasing sequence, each
exactly once, in a fixed canonical (reverse-lexicographic) order; the
trivial one-part partition is included and filtered by the caller. -/
def _generate_all_unique_integer_partitions (n : Nat) : List (List Nat) :=
  partsBF (n + n) n n

/-- Modelled from the spec: combinations with repetition — order-independent
selections of `m` items from a pool, by non-decreasing index (§4.2). -/
def multichoose {α : Type} : Nat → List α → List (List α)
  | 0, _ => [[]]
  | m+1, xs => xs.tails.flatMap fun s =>
      match s with
      | [] => []
      | y :: ys => (multichoose m (y :: ys)).map (y :: ·)

/-- Fuel-indexed worker for the ordered Cartesian product: maximal runs of
equal streams are combined by `multichoose` (combinations with repetition),
distinct runs by a plain Cartesian product, and each product term is the
concatenation of the per-run choices. -/
def opF {α : Type} [DecidableEq α] : Nat → List (List α) → List (List α)
  | _, [] => [[]]
  | 0, _ :: _ => []
  | fuel+1, s :: rest =>
    let m := 1 + (rest.takeWhile fun x => decide (x = s)).length
    let rest' := rest.dropWhile fun x => decide (x = s)
    (multichoose m s).flatMap fun comb => (opF fuel rest').map (comb ++ ·)

/-- Modelled from the spec: `_generate_ordered_cartesian_product` from
`cograph_generator/utils.py` (missing from the sources).  Per §4.2 it is the
redundancy-free combination rule: equal child streams (equal part sizes)
contribute combinations with repetition rather than ordered tuples. -/
def _generate_ordered_cartesian_product {α : Type} [DecidableEq α]
    (streams : List (List α)) : List (List α) :=
  opF streams.length streams

/-- Comma-join of strings, as used by the structure serializer. -/
def joinComma : List String → String
  | [] => ""
  | [s] => s
  | s :: s' :: rest => s ++ "," ++ joinComma (s' :: rest)

/-- Modelled from the spec: `_apply_cograph_operator_structure` from
`cograph_generator/utils.py` (missing from the sources).  Per §6 it wraps a
comma-separated child list with the operator: `J(c1,...,ck)`. -/
def _apply_cograph_operator_structure (operator : String) (children : List String) : String :=
  operator ++ "(" ++ joinComma children ++ ")"

/-! ### The structure composer, `generate_all_cotree_structures`
from `cograph_generator/generator.py`. -/

/-- Fuel-indexed worker for `generate_all_cotree_structures`.  Mirrors the
source: operator `J` at even depth and `U` at odd depth; `n = 1` yields the
single leaf; otherwise every non-trivial partition contributes the ordered
Cartesian product of recursively generated child streams. -/
def genSF : Nat → Nat → Nat → List String
  | 0, _, _ => []
  | fuel+1, node_count, depth =>
    let operator := if depth % 2 = 0 then "J" else "U"
    if node_count = 1 then ["a"]
    else
      ((_generate_all_unique_integer_partitions node_count).filter
        fun p => decide (p.length ≠ 1)).flatMap fun partition =>
        let child_streams := partition.map fun part_size => genSF fuel part_size (depth + 1)
        (_generate_ordered_cartesian_product child_streams).map fun combination =>
          _apply_cograph_operator_structure operator combination

/-- `generate_all_cotree_structures` from `cograph_generator/generator.py`:
all canonical cotree structure strings for `node_count` leaves starting at
recursion depth `depth` (the list of the values the Python generator
yields, in order).  The fuel `node_count` bounds the recursion depth; each
recursive call strictly decreases the node count, so it suffices. -/
def generate_all_cotree_structures (node_count depth : Nat) : List String :=
  genSF node_count node_count depth

/-- Tree-level mirror of `genSF`: the same enumeration producing `Cotree`
values instead of their serializations. -/
def genTF : Nat → Nat → Nat → List Cotree
  | 0, _, _ => []
  | fuel+1, node_count, depth =>
    if node_count = 1 then [.leaf]
    else
      ((_generate_all_unique_integer_partitions node_count).filter
        fun p => decide (p.length ≠ 1)).flatMap fun partition =>
        let child_streams := partition.map fun part_size => genTF fuel part_size (depth + 1)
        (_generate_ordered_cartesian_product child_streams).map fun combination =>
          Cotree.node (if depth % 2 = 0 then .J else .U) combination

namespace structures

/-- Modelled from the spec: `generate_connected_cotree_structures` from
`src/cograph_generator/structures.py` (missing from the sources).  Per §4.2
the connected entry point is exactly the composer: `connected(n) =
compose(n, 0)`. -/
def generate_connected_cotree_structures (node_count depth : Nat) : List String :=
  generate_all_cotree_structures node_count depth

end structures

namespace structures

/-- Modelled from the spec: `generate_all_cotree_structures` from
`src/cograph_generator/structures.py` (missing from the sources).  Per §4.2
`all(n)` is `connected(n)` together with the top-level `UNION`s of two or
more connected components, components of equal size combined with the same
repetition-aware rule. -/
def generate_all_cotree_structures (node_count depth : Nat) : List String :=
  generate_connected_cotree_structures node_count depth ++
  ((_generate_all_unique_integer_partitions node_count).filter
    fun p => decide (p.length ≠ 1)).flatMap fun partition =>
    let component_streams := partition.map fun s => generate_connected_cotree_structures s 0
    (_generate_ordered_cartesian_product component_streams).map fun combination =>
      _apply_cograph_operator_structure "U" combination

end structures

example : generate_all_cotree_structures 3 0 = ["J(U(a,a),a)", "J(a,a,a)"] := by decide

example : (generate_all_cotree_structures 4 0).length = 5 := by decide

example : structures.generate_all_cotree_structures 2 0 = ["J(a,a)", "U(a,a)"] := by decide

example : (structures.generate_all_cotree_structures 4 0).length = 10 := by decide

/-! ### Properties of the partition enumerator -/

theorem partsBF_sum : ∀ fuel n m p, p ∈ partsBF fuel n m → p.sum = n := by
  intro fuel
  induction fuel with
  | zero => intro n m p hp; simp [partsBF] at hp
  | succ fuel ih =>
    intro n m p hp
    simp only [partsBF] at hp
    by_cases hn : n = 0
    · simp [hn] at hp
      simp [hp, hn]
    · simp only [hn, if_false] at hp
      by_cases hm : m = 0
      · simp [hm] at hp
      · simp only [hm, if_false, List.mem_append] at hp
        rcases hp with hp | hp
        · by_cases hmn : m ≤ n
          · simp only [hmn, if_true, List.mem_map] at hp
            obtain ⟨q, hq, rfl⟩ := hp
            have := ih (n - m) m q hq
            simp [this]
            omega
          · simp [hmn] at hp
        · exact ih n (m - 1) p hp

theorem partsBF_pos : ∀ fuel n m p, p ∈ partsBF fuel n m → ∀ s ∈ p, 1 ≤ s := by
  intro fuel
  induction fuel with
  | zero => intro n m p hp; simp [partsBF] at hp
  | succ fuel ih =>
    intro n m p hp
    simp only [partsBF] at hp
    by_cases hn : n = 0
    · simp [hn] at hp
      simp [hp]
    · simp only [hn, if_false] at hp
      by_cases hm : m = 0
      · simp [hm] at hp
      · simp only [hm, if_false, List.mem_append] at hp
        rcases hp with hp | hp
        · by_cases hmn : m ≤ n
          · simp only [hmn, if_true, List.mem_map] at hp
            obtain ⟨q, hq, rfl⟩ := hp
            intro s hs
            rcases List.mem_cons.mp hs with rfl | hs
            · omega
            · exact ih (n - m) m q hq s hs
          · simp [hmn] at hp
        · exact ih n (m - 1) p hp

theorem partsBF_le : ∀ fuel n m p, p ∈ partsBF fuel n m → ∀ s ∈ p, s ≤ m := by
  intro fuel
  induction fuel with
  | zero => intro n m p hp; simp [partsBF] at hp
  | succ fuel ih =>
    intro n m p hp
    simp only [partsBF] at hp
    by_cases hn : n = 0
    · simp [hn] at hp
      simp [hp]
    · simp only [hn, if_false] at hp
      by_cases hm : m = 0
      · simp [hm] at hp
      · simp only [hm, if_false, List.mem_append] at hp
        rcases hp with hp | hp
        · by_cases hmn : m ≤ n
          · simp only [hmn, if_true, List.mem_map] at hp
            obtain ⟨q, hq, rfl⟩ := hp
            intro s hs
            rcases List.mem_cons.mp hs with rfl | hs
            · omega
            · exact ih (n - m) m q hq s hs
          · simp [hmn] at hp
        · intro s hs
          have := ih n (m - 1) p hp s hs
          omega

theorem partsBF_nodup : ∀ fuel n m, (partsBF fuel n m).Nodup := by
  intro fuel
  induction fuel with
  | zero => intro n m; simp [partsBF]
  | succ fuel ih =>
    intro n m
    simp only [partsBF]
    by_cases hn : n = 0
    · simp [hn]
    · simp only [hn, if_false]
      by_cases hm : m = 0
      · simp [hm]
      · simp only [hm, if_false]
        refine List.Nodup.append ?_ (ih n (m - 1)) ?_
        · by_cases hmn : m ≤ n
          · simp only [hmn, if_true]
            exact (ih (n - m) m).map fun p q h => by
              simpa using h
          · simp [hmn]
        · intro p hp hp'
          by_cases hmn : m ≤ n
          · simp only [hmn, if_true, List.mem_map] at hp
            obtain ⟨q, hq, rfl⟩ := hp
            have := partsBF_le fuel n (m - 1) _ hp' m (by simp)
            omega
          · simp [hmn] at hp

/-! ### Properties of `multichoose` -/

theorem multichoose_length {α : Type} :
    ∀ (m : Nat) (xs : List α) (c : List α), c ∈ multichoose m xs → c.length = m := by
  intro m
  induction m with
  | zero => intro xs c hc; simp [multichoose] at hc; simp [hc]
  | succ m ih =>
    intro xs c hc
    simp only [multichoose, List.mem_flatMap] at hc
    obtain ⟨s, hs, hc⟩ := hc
    cases s with
    | nil => simp at hc
    | cons y ys =>
      simp only [List.mem_map] at hc
      obtain ⟨c', hc', rfl⟩ := hc
      simp [ih _ _ hc']

theorem multichoose_mem_mem {α : Type} :
    ∀ (m : Nat) (xs : List α) (c : List α), c ∈ multichoose m xs →
      ∀ x ∈ c, x ∈ xs := by
  intro m
  induction m with
  | zero => intro xs c hc; simp [multichoose] at hc; simp [hc]
  | succ m ih =>
    intro xs c hc x hx
    simp only [multichoose, List.mem_flatMap] at hc
    obtain ⟨s, hs, hc⟩ := hc
    cases s with
    | nil => simp at hc
    | cons y ys =>
      simp only [List.mem_map] at hc
      obtain ⟨c', hc', rfl⟩ := hc
      have hsub : (y :: ys) <:+ xs := (List.mem_tails _ _).mp hs
      rcases List.mem_cons.mp hx with rfl | hx
      · exact hsub.sublist.mem (by simp)
      · exact hsub.sublist.mem (ih _ _ hc' x hx)

/-- In `xs.tails`, distinct entries that are nonempty have distinct heads,
provided `xs` has no duplicates. -/
theorem tails_pairwise_head {α : Type} (xs : List α) (h : xs.Nodup) :
    xs.tails.Pairwise (fun s t =>
      ∀ y ys z zs, s = y :: ys → t = z :: zs → y ≠ z) := by
  induction xs with
  | nil => simp
  | cons x xs ih =>
    rw [List.tails_cons]
    refine List.Pairwise.cons ?_ (ih (List.nodup_cons.mp h).2)
    intro t ht y ys z zs hy hz
    injection hy with hxy _
    subst hxy
    have hsub : t <:+ xs := (List.mem_tails _ _).mp ht
    intro hyz
    subst hyz
    have : x ∈ xs := hsub.sublist.mem (by simp [hz])
    exact (List.nodup_cons.mp h).1 this

theorem multichoose_nodup {α : Type} :
    ∀ (m : Nat) (xs : List α), xs.Nodup → (multichoose m xs).Nodup := by
  intro m
  induction m with
  | zero => intro xs _; simp [multichoose]
  | succ m ih =>
    intro xs hxs
    simp only [multichoose]
    rw [List.nodup_flatMap]
    constructor
    · intro s hs
      cases s with
      | nil => simp
      | cons y ys =>
        have hsub : (y :: ys) <:+ xs := (List.mem_tails _ _).mp hs
        refine (ih _ (hsub.sublist.nodup hxs)).map ?_
        intro c c' hcc
        simpa using hcc
    · have hpw := tails_pairwise_head xs hxs
      refine hpw.imp ?_
      intro s t hst
      cases s with
      | nil => simp [Function.onFun]
      | cons y ys =>
        cases t with
        | nil => simp [Function.onFun]
        | cons z zs =>
          have hyz : y ≠ z := hst y ys z zs rfl rfl
          intro c hc hc'
          simp only [List.mem_map] at hc hc'
          obtain ⟨c1, _, rfl⟩ := hc
          obtain ⟨c2, _, h2⟩ := hc'
          exact hyz (by simpa using congrArg (·.head?) h2.symm)

theorem tails_map {α β : Type} (f : α → β) :
    ∀ xs : List α, (xs.map f).tails = xs.tails.map (List.map f) := by
  intro xs
  induction xs with
  | nil => simp
  | cons x xs ih => simp [List.tails_cons, ih]

theorem multichoose_map {α β : Type} (f : α → β) :
    ∀ (m : Nat) (xs : List α),
      multichoose m (xs.map f) = (multichoose m xs).map (List.map f) := by
  intro m
  induction m with
  | zero => intro xs; simp [multichoose]
  | succ m ih =>
    intro xs
    simp only [multichoose]
    rw [tails_map, List.flatMap_map, List.map_flatMap]
    refine List.flatMap_congr ?_
    intro s _
    cases s with
    | nil => simp
    | cons y ys =>
      simp only [List.map_cons]
      rw [show f y :: List.map f ys = List.map f (y :: ys) from rfl, ih (y :: ys)]
      simp only [List.map_map]
      rfl

/-! ### Properties of the ordered Cartesian product -/

/-- A stream list decomposes into the leading run of streams equal to its
head followed by the remaining streams. -/
theorem run_decomp {α : Type} [DecidableEq α] (s : α) (rest : List α) :
    s :: rest =
      List.replicate (1 + (rest.takeWhile fun x => decide (x = s)).length) s ++
        rest.dropWhile fun x => decide (x = s) := by
  have h1 : rest.takeWhile (fun x => decide (x = s)) =
      List.replicate (rest.takeWhile fun x => decide (x = s)).length s := by
    rw [List.eq_replicate_iff]
    refine ⟨rfl, ?_⟩
    intro b hb
    simpa using List.mem_takeWhile_imp hb
  rw [Nat.add_comm, List.replicate_succ]
  calc s :: rest
      = s :: (rest.takeWhile (fun x => decide (x = s)) ++
          rest.dropWhile fun x => decide (x = s)) := by
        rw [List.takeWhile_append_dropWhile]
    _ = s :: (List.replicate (rest.takeWhile fun x => decide (x = s)).length s ++
          rest.dropWhile fun x => decide (x = s)) := by rw [← h1]
    _ = _ := by simp

theorem forall₂_mem_replicate {α : Type} :
    ∀ (c : List α) (s : List α) (m : Nat), c.length = m → (∀ x ∈ c, x ∈ s) →
      List.Forall₂ (fun x stream => x ∈ stream) c (List.replicate m s) := by
  intro c
  induction c with
  | nil =>
    intro s m hlen _
    subst hlen
    simp
  | cons x c ih =>
    intro s m hlen hmem
    subst hlen
    rw [List.length_cons, List.replicate_succ]
    exact List.Forall₂.cons (hmem x (by simp))
      (ih s c.length rfl fun y hy => hmem y (by simp [hy]))

theorem opF_forall₂ {α : Type} [DecidableEq α] :
    ∀ (fuel : Nat) (streams : List (List α)) (e : List α),
      e ∈ opF fuel streams → List.Forall₂ (fun x stream => x ∈ stream) e streams := by
  intro fuel
  induction fuel with
  | zero =>
    intro streams e he
    cases streams with
    | nil =>
      simp [opF] at he
      simp [he]
    | cons s rest => simp [opF] at he
  | succ fuel ih =>
    intro streams e he
    cases streams with
    | nil =>
      simp [opF] at he
      simp [he]
    | cons s rest =>
      simp only [opF, List.mem_flatMap, List.mem_map] at he
      obtain ⟨comb, hcomb, e', he', rfl⟩ := he
      rw [run_decomp s rest]
      refine List.rel_append ?_ (ih _ _ he')
      exact forall₂_mem_replicate comb s _
        (multichoose_length _ _ _ hcomb)
        (multichoose_mem_mem _ _ _ hcomb)

theorem opF_nodup {α : Type} [DecidableEq α] :
    ∀ (fuel : Nat) (streams : List (List α)),
      (∀ s ∈ streams, s.Nodup) → (opF fuel streams).Nodup := by
  intro fuel
  induction fuel with
  | zero =>
    intro streams h
    cases streams with
    | nil => simp [opF]
    | cons s rest => simp [opF]
  | succ fuel ih =>
    intro streams h
    cases streams with
    | nil => simp [opF]
    | cons s rest =>
      simp only [opF]
      rw [List.nodup_flatMap]
      constructor
      · intro comb _
        refine (ih _ ?_).map ?_
        · intro s' hs'
          exact h s' (List.mem_cons_of_mem _ ((List.dropWhile_sublist _).mem hs'))
        · exact List.append_right_injective comb
      · have hmc : (multichoose (1 + (rest.takeWhile fun x => decide (x = s)).length) s).Nodup :=
          multichoose_nodup _ _ (h s (by simp))
        refine hmc.imp_of_mem ?_
        intro c1 c2 hm1 hm2 hne
        intro x hx1 hx2
        simp only [List.mem_map] at hx1 hx2
        obtain ⟨e1, _, rfl⟩ := hx1
        obtain ⟨e2, _, h2⟩ := hx2
        have l1 := multichoose_length _ _ c1 hm1
        have l2 := multichoose_length _ _ c2 hm2
        exact hne (List.append_inj h2.symm (l1.trans l2.symm)).1

theorem opF_map {α β : Type} [DecidableEq α] [DecidableEq β] (f : α → β)
    (hf : Function.Injective f) :
    ∀ (fuel : Nat) (streams : List (List α)),
      opF fuel (streams.map (List.map f)) = (opF fuel streams).map (List.map f) := by
  intro fuel
  induction fuel with
  | zero =>
    intro streams
    cases streams with
    | nil => simp [opF]
    | cons s rest => simp [opF]
  | succ fuel ih =>
    intro streams
    cases streams with
    | nil => simp [opF]
    | cons s rest =>
      simp only [List.map_cons, opF]
      have hpred : (fun x => decide (x = List.map f s)) ∘ List.map f =
          fun x => decide (x = s) := by
        funext x
        simp only [Function.comp_apply]
        rw [decide_eq_decide]
        exact (List.map_injective_iff.mpr hf).eq_iff
      rw [List.takeWhile_map, List.dropWhile_map, hpred, List.length_map,
        multichoose_map f, List.flatMap_map, List.map_flatMap]
      refine List.flatMap_congr ?_
      intro comb _
      rw [ih]
      rw [List.map_map, List.map_map]
      refine List.map_congr_left ?_
      intro e _
      simp

/-! ### Invariants of the tree-level composer `genTF` -/

theorem leafCountL_eq_sum : ∀ cs : List Cotree, leafCountL cs = (cs.map leafCount).sum := by
  intro cs
  induction cs with
  | nil => simp [leafCountL]
  | cons t ts ih => simp [leafCountL, ih]

theorem forall₂_fun_eq_map {α β : Type} (g : α → β) :
    ∀ (l1 : List α) (l2 : List β),
      List.Forall₂ (fun x y => g x = y) l1 l2 → l1.map g = l2 := by
  intro l1
  induction l1 with
  | nil => intro l2 h; cases h; rfl
  | cons x l1 ih =>
    intro l2 h
    cases h with
    | cons hx hrest => simp [hx, ih _ hrest]

theorem forall₂_mem_exists {α β : Type} (R : α → β → Prop) :
    ∀ (l1 : List α) (l2 : List β), List.Forall₂ R l1 l2 →
      ∀ x ∈ l1, ∃ y ∈ l2, R x y := by
  intro l1
  induction l1 with
  | nil => intro l2 h x hx; cases hx
  | cons a l1 ih =>
    intro l2 h x hx
    cases h with
    | cons hab hrest =>
      rcases List.mem_cons.mp hx with rfl | hx
      · exact ⟨_, by simp, hab⟩
      · obtain ⟨y, hy, hr⟩ := ih _ hrest x hx
        exact ⟨y, by simp [hy], hr⟩

theorem genTF_leafCount : ∀ fuel n d t, t ∈ genTF fuel n d → leafCount t = n := by
  intro fuel
  induction fuel with
  | zero => intro n d t ht; simp [genTF] at ht
  | succ fuel ih =>
    intro n d t ht
    simp only [genTF] at ht
    by_cases hn : n = 1
    · simp [hn] at ht
      simp [ht, leafCount, hn]
    · simp only [hn, if_false, List.mem_flatMap, List.mem_map] at ht
      obtain ⟨p, hp, comb, hcomb, rfl⟩ := ht
      have hp' := List.mem_filter.mp hp
      have hsum := partsBF_sum _ _ _ p hp'.1
      have hf2 := opF_forall₂ _ _ _ hcomb
      rw [List.forall₂_map_right_iff] at hf2
      have : comb.map leafCount = p :=
        forall₂_fun_eq_map leafCount comb p
          (hf2.imp fun a b hab => ih b (d + 1) a hab)
      simp [leafCount, leafCountL_eq_sum, this, hsum]

/-- The child leaf-count list of an emitted node recovers the partition. -/
theorem genTF_comb_counts (fuel d : Nat) (p : List Nat) (comb : List Cotree)
    (hcomb : comb ∈ _generate_ordered_cartesian_product
      (p.map fun s => genTF fuel s d)) :
    comb.map leafCount = p := by
  have hf2 := opF_forall₂ _ _ _ hcomb
  rw [List.forall₂_map_right_iff] at hf2
  exact forall₂_fun_eq_map leafCount comb p
    (hf2.imp fun a b hab => genTF_leafCount fuel b d a hab)

theorem genTF_nodup : ∀ fuel n d, (genTF fuel n d).Nodup := by
  intro fuel
  induction fuel with
  | zero => intro n d; simp [genTF]
  | succ fuel ih =>
    intro n d
    simp only [genTF]
    by_cases hn : n = 1
    · simp [hn]
    · simp only [hn, if_false]
      rw [List.nodup_flatMap]
      constructor
      · intro p _
        refine (opF_nodup _ _ ?_).map ?_
        · intro s hs
          simp only [List.mem_map] at hs
          obtain ⟨x, _, rfl⟩ := hs
          exact ih x (d + 1)
        · intro a b hab
          simpa using hab
      · have : ((_generate_all_unique_integer_partitions n).filter
            fun p => decide (p.length ≠ 1)).Nodup :=
          (partsBF_nodup _ _ _).filter _
        refine this.imp_of_mem ?_
        intro p1 p2 _ _ hne
        intro t h1 h2
        simp only [List.mem_map] at h1 h2
        obtain ⟨c1, hc1, rfl⟩ := h1
        obtain ⟨c2, hc2, hc⟩ := h2
        have e1 := genTF_comb_counts fuel (d+1) p1 c1 hc1
        have e2 := genTF_comb_counts fuel (d+1) p2 c2 hc2
        have : c2 = c1 := by simpa using hc
        exact hne (e1 ▸ this ▸ e2)

mutual
/-- Well-formed cotree: every internal node has at least one child. -/
def isWF : Cotree → Bool
  | .leaf => true
  | .node _ cs => (decide (cs ≠ [])) && isWFL cs

/-- All members of a list are well-formed cotrees. -/
def isWFL : List Cotree → Bool
  | [] => true
  | t :: ts => isWF t && isWFL ts
end

theorem isWFL_iff : ∀ cs : List Cotree, isWFL cs = true ↔ ∀ t ∈ cs, isWF t = true := by
  intro cs
  induction cs with
  | nil => simp [isWFL]
  | cons t ts ih => simp [isWFL, ih]

theorem genTF_WF : ∀ fuel n d t, 1 ≤ n → t ∈ genTF fuel n d → isWF t = true := by
  intro fuel
  induction fuel with
  | zero => intro n d t _ ht; simp [genTF] at ht
  | succ fuel ih =>
    intro n d t hn1 ht
    simp only [genTF] at ht
    by_cases hn : n = 1
    · simp [hn] at ht
      simp [ht, isWF]
    · simp only [hn, if_false, List.mem_flatMap, List.mem_map] at ht
      obtain ⟨p, hp, comb, hcomb, rfl⟩ := ht
      have hp' := List.mem_filter.mp hp
      have hsum := partsBF_sum _ _ _ p hp'.1
      have hpos := partsBF_pos _ _ _ p hp'.1
      have hcounts := genTF_comb_counts fuel (d+1) p comb hcomb
      have hcombne : comb ≠ [] := by
        intro hc
        subst hc
        simp only [List.map_nil] at hcounts
        rw [← hcounts] at hsum
        simp at hsum
        omega
      simp only [isWF, Bool.and_eq_true, decide_eq_true_eq]
      refine ⟨hcombne, ?_⟩
      rw [isWFL_iff]
      intro t' ht'
      have hf2 := opF_forall₂ _ _ _ hcomb
      rw [List.forall₂_map_right_iff] at hf2
      obtain ⟨s, hs, hmem⟩ := forall₂_mem_exists _ comb p hf2 t' ht'
      exact ih s (d + 1) t' (hpos s hs) hmem

/-! ### Operator alternation -/

mutual
/-- Depth-alternation check: with flag `b = true` the node's operator must
be `J`, with `b = false` it must be `U`, and the flag flips for the
children.  `altOk true t` states that the root and all even-depth internal
nodes carry `J` and all odd-depth internal nodes carry `U`. -/
def altOk : Bool → Cotree → Bool
  | _, .leaf => true
  | b, .node op cs => (decide (op = (if b then CoOp.J else CoOp.U))) && altOkL (!b) cs

/-- `altOk` for each member of a child list. -/
def altOkL : Bool → List Cotree → Bool
  | _, [] => true
  | b, t :: ts => altOk b t && altOkL b ts
end

mutual
/-- No internal node has a direct child with the same operator. -/
def noSameOpChild : Cotree → Bool
  | .leaf => true
  | .node op cs => noSameOpChildL op cs

/-- No member of the child list carries operator `op` at its root, and each
member recursively satisfies `noSameOpChild`. -/
def noSameOpChildL : CoOp → List Cotree → Bool
  | _, [] => true
  | op, c :: cs =>
    (match c with
     | .leaf => true
     | .node op' _ => decide (op' ≠ op)) && noSameOpChild c && noSameOpChildL op cs
end

theorem altOkL_iff : ∀ (b : Bool) (cs : List Cotree),
    altOkL b cs = true ↔ ∀ t ∈ cs, altOk b t = true := by
  intro b cs
  induction cs with
  | nil => simp [altOkL]
  | cons t ts ih => simp [altOkL, ih]

/-- Depth alternation rules out equal adjacent operators. -/
theorem altOk_noSameOpChild : ∀ t : Cotree, ∀ b : Bool,
    altOk b t = true → noSameOpChild t = true := by
  have main : ∀ t : Cotree,
      (∀ b : Bool, altOk b t = true → noSameOpChild t = true) := by
    intro t
    induction t using Cotree.indOn with
    | hleaf => intro b _; rfl
    | hnode op cs ih =>
      intro b halt
      simp only [altOk, Bool.and_eq_true, decide_eq_true_eq] at halt
      obtain ⟨hop, hcs⟩ := halt
      rw [altOkL_iff] at hcs
      simp only [noSameOpChild]
      induction cs with
      | nil => rfl
      | cons c cs' ihl =>
        simp only [noSameOpChildL, Bool.and_eq_true]
        refine ⟨⟨?_, ?_⟩, ?_⟩
        · cases c with
          | leaf => rfl
          | node op' cs'' =>
            have hc := hcs (Cotree.node op' cs'') (by simp)
            simp only [altOk, Bool.and_eq_true, decide_eq_true_eq] at hc
            subst hop
            rw [hc.1]
            cases b <;> simp
        · exact ih c (by simp) (!b) (hcs c (by simp))
        · exact ihl (fun t ht => ih t (by simp [ht]))
            (fun t ht => hcs t (by simp [ht]))
  exact main

theorem genTF_alt : ∀ fuel n d t, t ∈ genTF fuel n d →
    altOk (decide (d % 2 = 0)) t = true := by
  intro fuel
  induction fuel with
  | zero => intro n d t ht; simp [genTF] at ht
  | succ fuel ih =>
    intro n d t ht
    simp only [genTF] at ht
    by_cases hn : n = 1
    · simp [hn] at ht
      simp [ht, altOk]
    · simp only [hn, if_false, List.mem_flatMap, List.mem_map] at ht
      obtain ⟨p, _, comb, hcomb, rfl⟩ := ht
      simp only [altOk, Bool.and_eq_true, decide_eq_true_eq]
      constructor
      · by_cases hd : d % 2 = 0 <;> simp [hd]
      · rw [altOkL_iff]
        intro t' ht'
        have hf2 := opF_forall₂ _ _ _ hcomb
        rw [List.forall₂_map_right_iff] at hf2
        obtain ⟨s, _, hmem⟩ := forall₂_mem_exists _ comb p hf2 t' ht'
        have := ih s (d + 1) t' hmem
        have hflip : decide ((d + 1) % 2 = 0) = !decide (d % 2 = 0) := by
          by_cases hd : d % 2 = 0
          · have : (d + 1) % 2 = 1 := by omega
            simp [hd, this]
          · have : (d + 1) % 2 = 0 := by omega
            simp [hd, this]
        rwa [hflip] at this

/-! ### Bridge between the string-level composer and its tree mirror -/

theorem serialize_injective : Function.Injective serialize := by
  intro a b h
  exact serL_inj a b (congrArg String.data h)

theorem joinComma_data : ∀ cs : List Cotree,
    (joinComma (cs.map serialize)).data = serLs cs := by
  intro cs
  induction cs with
  | nil => rfl
  | cons t ts ih =>
    cases ts with
    | nil => rfl
    | cons t' ts' =>
      rw [serLs_cons₂]
      simp only [List.map_cons, joinComma] at ih ⊢
      rw [String.data_append, String.data_append, ih, List.append_assoc]
      rfl

theorem applyOp_node (op : CoOp) (cs : List Cotree) :
    _apply_cograph_operator_structure (String.mk [op.char]) (cs.map serialize) =
      serialize (.node op cs) := by
  apply String.ext
  simp only [_apply_cograph_operator_structure, serialize, serL]
  rw [String.data_append, String.data_append, String.data_append, joinComma_data]
  rfl

theorem genSF_eq : ∀ fuel n d, genSF fuel n d = (genTF fuel n d).map serialize := by
  intro fuel
  induction fuel with
  | zero => intro n d; simp [genSF, genTF]
  | succ fuel ih =>
    intro n d
    simp only [genSF, genTF]
    by_cases hn : n = 1
    · simp only [hn, if_true, List.map_cons, List.map_nil]
      rfl
    · simp only [hn, if_false]
      rw [List.map_flatMap]
      refine List.flatMap_congr ?_
      intro p _
      have hstreams : p.map (fun s => genSF fuel s (d + 1)) =
          (p.map fun s => genTF fuel s (d + 1)).map (List.map serialize) := by
        rw [List.map_map]
        exact List.map_congr_left fun s _ => ih s (d + 1)
      rw [hstreams]
      unfold _generate_ordered_cartesian_product
      rw [List.length_map, opF_map serialize serialize_injective, List.map_map,
        List.map_map]
      refine List.map_congr_left ?_
      intro comb _
      simp only [Function.comp_apply]
      by_cases hd : d % 2 = 0
      · simpa [hd] using applyOp_node .J comb
      · simpa [hd] using applyOp_node .U comb

/-! ### The graph derived from a structure (§3 of the spec)

Vertices of the graph of a cotree `t` are `0, ..., leafCount t - 1`, in
left-to-right leaf order.  A `U` node puts no edges between its children's
blocks; a `J` node connects every vertex of one child block to every vertex
of every other child block. -/

mutual
/-- Adjacency of vertices `i` and `j` in the graph derived from a cotree by
the recursive join/union rule. -/
def adjT : Cotree → Nat → Nat → Bool
  | .leaf, _, _ => false
  | .node op cs, i, j => adjL op cs i j

/-- Adjacency within an operator node's ordered child blocks. -/
def adjL : CoOp → List Cotree → Nat → Nat → Bool
  | _, [], _, _ => false
  | op, c :: cs, i, j =>
    if i < leafCount c then
      if j < leafCount c then adjT c i j else decide (op = .J)
    else if j < leafCount c then decide (op = .J)
    else adjL op cs (i - leafCount c) (j - leafCount c)
end

/-- Index of the child block containing vertex `i`. -/
def blockIdx : List Cotree → Nat → Nat
  | [], _ => 0
  | c :: cs, i => if i < leafCount c then 0 else blockIdx cs (i - leafCount c) + 1

/-- The derived graph of a structure is connected: any two vertices are
joined by a path of adjacent vertices. -/
def connectedGraph (t : Cotree) : Prop :=
  ∀ i j : Nat, i < leafCount t → j < leafCount t →
    Relation.ReflTransGen (fun a b => adjT t a b = true) i j

theorem adjL_cross : ∀ (cs : List Cotree) (i j : Nat),
    i < leafCountL cs → j < leafCountL cs → blockIdx cs i ≠ blockIdx cs j →
    adjL .J cs i j = true := by
  intro cs
  induction cs with
  | nil => intro i j hi _ _; simp [leafCountL] at hi
  | cons c cs ih =>
    intro i j hi hj hb
    simp only [leafCountL] at hi hj
    simp only [adjL]
    by_cases hic : i < leafCount c
    · by_cases hjc : j < leafCount c
      · exfalso
        apply hb
        simp [blockIdx, hic, hjc]
      · simp [hic, hjc]
    · by_cases hjc : j < leafCount c
      · simp [hic, hjc]
      · simp only [hic, if_false, hjc]
        refine ih (i - leafCount c) (j - leafCount c) (by omega) (by omega) ?_
        simp only [blockIdx, hic, hjc, if_false] at hb
        omega

theorem blockIdx_head (c : Cotree) (cs : List Cotree) (i : Nat)
    (h : i < leafCount c) : blockIdx (c :: cs) i = 0 := by
  simp [blockIdx, h]

theorem connected_of_join (cs : List Cotree)
    (hlen : 2 ≤ cs.length) (hpos : ∀ c ∈ cs, 1 ≤ leafCount c) :
    connectedGraph (.node .J cs) := by
  intro i j hi hj
  simp only [leafCount] at hi hj
  simp only [adjT]
  by_cases hb : blockIdx cs i = blockIdx cs j
  · -- same block: go through a vertex of a different block
    obtain ⟨c₀, c₁, rest, rfl⟩ : ∃ c₀ c₁ rest, cs = c₀ :: c₁ :: rest := by
      cases cs with
      | nil => simp at hlen
      | cons c₀ cs' =>
        cases cs' with
        | nil => simp at hlen
        | cons c₁ rest => exact ⟨c₀, c₁, rest, rfl⟩
    have hk₀ : 1 ≤ leafCount c₀ := hpos c₀ (by simp)
    have hk₁ : 1 ≤ leafCount c₁ := hpos c₁ (by simp)
    have htot : leafCount c₀ < leafCountL (c₀ :: c₁ :: rest) := by
      simp only [leafCountL]
      omega
    have hb0 : blockIdx (c₀ :: c₁ :: rest) 0 = 0 := blockIdx_head _ _ _ (by omega)
    have hbk : blockIdx (c₀ :: c₁ :: rest) (leafCount c₀) = 1 := by
      simp only [blockIdx]
      rw [if_neg (by omega), if_pos (by omega)]
    set w := if blockIdx (c₀ :: c₁ :: rest) i = 0 then leafCount c₀ else 0 with hw
    have hwlt : w < leafCountL (c₀ :: c₁ :: rest) := by
      rw [hw]
      split
      · exact htot
      · simp only [leafCountL]
        omega
    have hwb : blockIdx (c₀ :: c₁ :: rest) w ≠ blockIdx (c₀ :: c₁ :: rest) i := by
      rw [hw]
      split
      · rename_i h0
        rw [hbk, h0]
        omega
      · rename_i h0
        rw [hb0]
        exact fun hc => h0 hc.symm
    refine Relation.ReflTransGen.head (b := w) ?_ (Relation.ReflTransGen.single ?_)
    · exact adjL_cross _ i w hi hwlt fun hc => hwb hc.symm
    · exact adjL_cross _ w j hwlt hj (hb ▸ hwb)
  · exact Relation.ReflTransGen.single (adjL_cross cs i j hi hj hb)

theorem leaf_connected : connectedGraph .leaf := by
  intro i j hi hj
  simp only [leafCount] at hi hj
  interval_cases i
  interval_cases j
  rfl

/-- Every tree emitted by the composer at depth 0 derives a connected
graph. -/
theorem genTF_connected : ∀ fuel n t, 1 ≤ n → t ∈ genTF fuel n 0 →
    connectedGraph t := by
  intro fuel n t hn ht
  cases fuel with
  | zero => simp [genTF] at ht
  | succ fuel =>
    simp only [genTF] at ht
    by_cases h1 : n = 1
    · simp [h1] at ht
      rw [ht]
      exact leaf_connected
    · simp only [h1, if_false, List.mem_flatMap, List.mem_map] at ht
      obtain ⟨p, hp, comb, hcomb, rfl⟩ := ht
      have hp' := List.mem_filter.mp hp
      have hsum := partsBF_sum _ _ _ p hp'.1
      have hpos := partsBF_pos _ _ _ p hp'.1
      have hcounts := genTF_comb_counts fuel 1 p comb hcomb
      have hplen : p ≠ [] := by
        intro hc
        subst hc
        simp at hsum
        omega
      have hlen2 : 2 ≤ comb.length := by
        have h1' : decide (p.length ≠ 1) = true := hp'.2
        simp only [decide_eq_true_eq] at h1'
        have : comb.length = p.length := by
          rw [← hcounts, List.length_map]
        have : p.length ≠ 0 := fun hc => hplen (List.eq_nil_of_length_eq_zero hc)
        omega
      have hcpos : ∀ c ∈ comb, 1 ≤ leafCount c := by
        intro c hc
        have : leafCount c ∈ p := hcounts ▸ List.mem_map_of_mem leafCount hc
        exact hpos _ this
      simpa using connected_of_join comb hlen2 hcpos

/-! ### Claims C1, C2, C3 -/

/-- C1: the structure enumerator produces exactly the fixture counts: the
connected-only enumeration `generate_all_cotree_structures (n, 0)` emits
1, 1, 2, 5 structures for `n = 1, 2, 3, 4`, and the full enumeration
`structures.generate_all_cotree_structures (n, 0)` emits 1, 2, 4, 10
structures for `n = 1, 2, 3, 4`. -/
theorem C1_fixture_counts :
    (generate_all_cotree_structures 1 0).length = 1 ∧
    (generate_all_cotree_structures 2 0).length = 1 ∧
    (generate_all_cotree_structures 3 0).length = 2 ∧
    (generate_all_cotree_structures 4 0).length = 5 ∧
    (structures.generate_all_cotree_structures 1 0).length = 1 ∧
    (structures.generate_all_cotree_structures 2 0).length = 2 ∧
    (structures.generate_all_cotree_structures 3 0).length = 4 ∧
    (structures.generate_all_cotree_structures 4 0).length = 10 := by
  decide

/-- C2: for every `n ≥ 1` the connected enumeration
`generate_all_cotree_structures (n, 0)` emits no duplicate string, and every
emitted structure is the serialization of a cotree whose derived graph
(join/union rule) is connected. -/
theorem C2_connected_nodup_and_connected : ∀ n : Nat, 1 ≤ n →
    (generate_all_cotree_structures n 0).Nodup ∧
    ∀ s ∈ generate_all_cotree_structures n 0,
      ∃ t : Cotree, serialize t = s ∧ connectedGraph t := by
  intro n hn
  constructor
  · rw [generate_all_cotree_structures, genSF_eq]
    exact (genTF_nodup n n 0).map serialize_injective
  · intro s hs
    rw [generate_all_cotree_structures, genSF_eq] at hs
    obtain ⟨t, ht, rfl⟩ := List.mem_map.mp hs
    exact ⟨t, rfl, genTF_connected n n t hn ht⟩

/-- Witness for C2 at `n = 3`. -/
theorem C2_connected_nodup_and_connected_witness :
    (generate_all_cotree_structures 3 0).Nodup ∧
    ∀ s ∈ generate_all_cotree_structures 3 0,
      ∃ t : Cotree, serialize t = s ∧ connectedGraph t :=
  C2_connected_nodup_and_connected 3 (by decide)

/-- C3: every structure emitted by the composer at depth 0 is the
serialization of a cotree satisfying the reduced-cotree alternation
invariant: the root and all even-depth internal nodes carry `J`, all
odd-depth internal nodes carry `U` (`altOk true`), and consequently no node
has a direct child with the same operator (`noSameOpChild`). -/
theorem C3_alternation : ∀ (n : Nat) (s : String),
    s ∈ generate_all_cotree_structures n 0 →
    ∃ t : Cotree, serialize t = s ∧ altOk true t = true ∧
      noSameOpChild t = true := by
  intro n s hs
  rw [generate_all_cotree_structures, genSF_eq] at hs
  obtain ⟨t, ht, rfl⟩ := List.mem_map.mp hs
  have halt : altOk true t = true := genTF_alt n n 0 t ht
  exact ⟨t, rfl, halt, altOk_noSameOpChild t true halt⟩

/-- Witness for C3 at `n = 3`, `s = "J(U(a,a),a)"`. -/
theorem C3_alternation_witness :
    "J(U(a,a),a)" ∈ generate_all_cotree_structures 3 0 ∧
    ∃ t : Cotree, serialize t = "J(U(a,a),a)" ∧ altOk true t = true ∧
      noSameOpChild t = true :=
  ⟨by decide, C3_alternation 3 "J(U(a,a),a)" (by decide)⟩

/-! ### Parsing a structure string back into a cotree

Used by the modelled graph6 encoder (the spec's §4.3 step 1: parse the
structure, rejecting malformed text). -/

/-- Option-valued map that fails as soon as one element fails. -/
def mapO {α β : Type} (f : α → Option β) : List α → Option (List β)
  | [] => some []
  | x :: xs =>
    match f x with
    | none => none
    | some y =>
      match mapO f xs with
      | none => none
      | some ys => some (y :: ys)

/-- Fuel-indexed structure parser: `a` is a leaf; `J(...)`/`U(...)` wrap a
nonempty comma-separated child list (split by `_split_args`); anything else
is malformed.  The fuel bounds recursion depth; the input length suffices. -/
def parseF : Nat → List Char → Option Cotree
  | 0, _ => none
  | fuel+1, s =>
    if s = ['a'] then some .leaf
    else
      match s with
      | c :: '(' :: rest =>
        match (if c = 'J' then some CoOp.J else if c = 'U' then some CoOp.U else none) with
        | none => none
        | some op =>
          match rest.getLast? with
          | some ch =>
            if ch = ')' then
              match mapO (parseF fuel) (_split_args rest.dropLast) with
              | none => none
              | some children =>
                if children.isEmpty then none else some (.node op children)
            else none
          | none => none
      | _ => none

/-- Parser entry point on strings. -/
def parseStructure (s : String) : Option Cotree :=
  parseF s.data.length s.data

theorem serL_mem_le : ∀ (cs : List Cotree) (t : Cotree), t ∈ cs →
    (serL t).length ≤ (serLs cs).length := by
  intro cs
  induction cs with
  | nil => intro t ht; cases ht
  | cons c cs ih =>
    intro t ht
    cases cs with
    | nil =>
      rcases List.mem_singleton.mp ht with rfl
      simp [serLs]
    | cons c' cs' =>
      rw [serLs_cons₂]
      rcases List.mem_cons.mp ht with rfl | ht
      · simp
      · have := ih t ht
        simp only [List.length_append, List.length_cons]
        omega

theorem serLs_tail_le (c : Cotree) (cs : List Cotree) :
    (serLs cs).length ≤ (serLs (c :: cs)).length := by
  cases cs with
  | nil => simp [serLs]
  | cons c' cs' =>
    rw [serLs_cons₂]
    simp only [List.length_append, List.length_cons]
    omega

/-- Parsing the serializations of well-formed children with enough fuel
succeeds and recovers the children. -/
theorem mapO_parse_children (f : Nat) :
    ∀ cs : List Cotree,
      (∀ t ∈ cs, isWF t = true →
        ∀ fuel, (serL t).length ≤ fuel → parseF fuel (serL t) = some t) →
      (∀ t ∈ cs, isWF t = true) →
      (serLs cs).length ≤ f →
      mapO (parseF f) (cs.map serL) = some cs := by
  intro cs
  induction cs with
  | nil => intro _ _ _; rfl
  | cons c cs' ih =>
    intro hparse hwf hlen
    have hc : parseF f (serL c) = some c :=
      hparse c (by simp) (hwf c (by simp)) f
        ((serL_mem_le (c :: cs') c (by simp)).trans hlen)
    have hrest : mapO (parseF f) (cs'.map serL) = some cs' :=
      ih (fun t ht => hparse t (by simp [ht]))
        (fun t ht => hwf t (by simp [ht]))
        ((serLs_tail_le c cs').trans hlen)
    simp only [List.map_cons, mapO, hc, hrest]

theorem serL_node_length (op : CoOp) (cs : List Cotree) :
    (serL (.node op cs)).length = (serLs cs).length + 3 := by
  simp [serL]

/-- Round trip: the parser recovers every well-formed cotree from its
serialization, given fuel at least the serialization length. -/
theorem parseF_serL : ∀ t : Cotree, isWF t = true →
    ∀ fuel, (serL t).length ≤ fuel → parseF fuel (serL t) = some t := by
  intro t
  induction t using Cotree.indOn with
  | hleaf =>
    intro _ fuel hfuel
    cases fuel with
    | zero => simp [serL] at hfuel
    | succ f => simp [parseF, serL]
  | hnode op cs ih =>
    intro hwf fuel hfuel
    have hwf' := hwf
    simp only [isWF, Bool.and_eq_true, decide_eq_true_eq] at hwf'
    obtain ⟨hcs_ne, hwfl⟩ := hwf'
    rw [isWFL_iff] at hwfl
    rw [serL_node_length] at hfuel
    cases fuel with
    | zero => omega
    | succ f =>
      have hlen : (serLs cs).length ≤ f := by omega
      have hmap' : mapO (parseF f) (_split_args (serLs cs)) = some cs := by
        rw [split_args_serLs cs hcs_ne]
        exact mapO_parse_children f cs ih hwfl hlen
      have hempty : cs.isEmpty = false := by
        cases cs with
        | nil => exact absurd rfl hcs_ne
        | cons _ _ => rfl
      have hne_a : (op.char :: '(' :: serLs cs ++ [')'] : List Char) ≠ ['a'] := by
        intro hc
        have hl := congrArg List.length hc
        simp at hl
      show parseF (f + 1) (op.char :: '(' :: serLs cs ++ [')']) = some (.node op cs)
      simp only [parseF]
      rw [if_neg hne_a]
      cases op with
      | J =>
        simp only [CoOp.char, List.getLast?_concat, List.dropLast_concat]
        simp [hmap', hcs_ne]
      | U =>
        simp only [CoOp.char, List.getLast?_concat, List.dropLast_concat]
        simp [hmap', hcs_ne]

/-! ### graph6 encoding

Modelled from the spec: `_structure_to_g6_optimized_worker` lives in
`cograph_generator/adjacency_g6.py`, which is missing from the sources.
Per §4.3/§6: parse the structure into its graph, take the upper-triangle
adjacency bits column by column, pack 6 bits per byte (most significant
first, final group zero-padded on the right), emit each packed value plus
63, after a size byte `n + 63`; reject unparsable text and out-of-range
sizes. -/

/-- Column-major upper-triangle adjacency bits of the derived graph:
for column `j = 1..n-1`, rows `i = 0..j-1`. -/
def adjBitsCol (t : Cotree) : List Bool :=
  (List.range (leafCount t)).flatMap fun j => (List.range j).map fun i => adjT t i j

/-- Operational bit packer: accumulate bits most-significant-first, emit a
byte (`value + 63`) every 6 bits, and pad the final partial group with
zeros on the right. -/
def packAcc : List Bool → Nat → Nat → List Char
  | [], _, 0 => []
  | [], acc, cnt+1 => [Char.ofNat (acc * 2 ^ (6 - (cnt + 1)) + 63)]
  | b :: bs, acc, cnt =>
    let acc' := 2 * acc + (if b then 1 else 0)
    if cnt + 1 = 6 then Char.ofNat (acc' + 63) :: packAcc bs 0 0
    else packAcc bs acc' (cnt + 1)

/-- The graph6 line of a cotree's derived graph (size byte then packed
adjacency bytes), as a character list. -/
def graph6Bytes (t : Cotree) : List Char :=
  Char.ofNat (leafCount t + 63) :: packAcc (adjBitsCol t) 0 0

/-- Encoder failures: malformed structure text, or a vertex count outside
the representable single-byte range. -/
inductive G6Error where
  | parseError (offending : String)
  | rangeError (offending : String) (n : Nat)
deriving DecidableEq

/-- The offending structure carried by an encoder failure. -/
def G6Error.offending : G6Error → String
  | .parseError s => s
  | .rangeError s _ => s

/-- Modelled from the spec: `_structure_to_g6_optimized_worker` from
`cograph_generator/adjacency_g6.py` (missing from the sources).  Parse the
structure string, reject malformed text with the offending text identified,
reject `n > 62`, otherwise emit the graph6 line. -/
def _structure_to_g6_optimized_worker (s : String) : Except G6Error String :=
  match parseStructure s with
  | none => .error (.parseError s)
  | some t =>
    if leafCount t ≤ 62 then .ok (String.mk (graph6Bytes t))
    else .error (.rangeError s (leafCount t))

/-- Fuel-indexed chunking of a bit list into groups of six. -/
def chunk6F : Nat → List Bool → List (List Bool)
  | 0, _ => []
  | fuel+1, bits =>
    if bits = [] then [] else bits.take 6 :: chunk6F fuel (bits.drop 6)

/-- Zero-pad a bit group on the right to six bits. -/
def padTo6 (g : List Bool) : List Bool := g ++ List.replicate (6 - g.length) false

/-- Value of a bit group, most significant bit first. -/
def bitsVal (g : List Bool) : Nat :=
  g.foldl (fun a b => 2 * a + (if b then 1 else 0)) 0

/-- Declarative description of the packed bytes: chunk the bit list into
groups of six, zero-pad the final group, and emit each value plus 63. -/
def g6LineSpec (t : Cotree) : List Char :=
  Char.ofNat (leafCount t + 63) ::
    (chunk6F (adjBitsCol t).length (adjBitsCol t)).map fun g =>
      Char.ofNat (bitsVal (padTo6 g) + 63)

theorem chunk6F_nil : ∀ fuel, chunk6F fuel [] = [] := by
  intro fuel
  cases fuel <;> rfl

theorem packAcc_chunks : ∀ (fuel : Nat) (bits : List Bool), bits.length ≤ fuel →
    packAcc bits 0 0 =
      (chunk6F fuel bits).map fun g => Char.ofNat (bitsVal (padTo6 g) + 63) := by
  intro fuel
  induction fuel with
  | zero =>
    intro bits hlen
    have : bits = [] := List.eq_nil_of_length_eq_zero (Nat.le_zero.mp hlen)
    subst this
    rfl
  | succ fuel ih =>
    intro bits hlen
    match bits with
    | [] => rfl
    | [a] =>
      rw [show chunk6F (fuel + 1) [a] = [[a]] by simp [chunk6F, chunk6F_nil]]
      cases a <;> rfl
    | [a, b] =>
      rw [show chunk6F (fuel + 1) [a, b] = [[a, b]] by simp [chunk6F, chunk6F_nil]]
      cases a <;> cases b <;> rfl
    | [a, b, c] =>
      rw [show chunk6F (fuel + 1) [a, b, c] = [[a, b, c]] by
        simp [chunk6F, chunk6F_nil]]
      cases a <;> cases b <;> cases c <;> rfl
    | [a, b, c, d] =>
      rw [show chunk6F (fuel + 1) [a, b, c, d] = [[a, b, c, d]] by
        simp [chunk6F, chunk6F_nil]]
      cases a <;> cases b <;> cases c <;> cases d <;> rfl
    | [a, b, c, d, e] =>
      rw [show chunk6F (fuel + 1) [a, b, c, d, e] = [[a, b, c, d, e]] by
        simp [chunk6F, chunk6F_nil]]
      cases a <;> cases b <;> cases c <;> cases d <;> cases e <;> rfl
    | a :: b :: c :: d :: e :: f :: rest =>
      have hrest : rest.length ≤ fuel := by
        simp only [List.length_cons] at hlen
        omega
      have hstep : packAcc (a :: b :: c :: d :: e :: f :: rest) 0 0 =
          Char.ofNat (bitsVal (padTo6 [a, b, c, d, e, f]) + 63) :: packAcc rest 0 0 := by
        cases a <;> cases b <;> cases c <;> cases d <;> cases e <;> cases f <;> rfl
      rw [hstep, ih rest hrest]
      simp only [chunk6F]
      rw [if_neg (by simp)]
      simp only [List.map_cons]
      rfl

instance {ε α : Type} [DecidableEq ε] [DecidableEq α] :
    DecidableEq (Except ε α) := fun a b =>
  match a, b with
  | .ok x, .ok y => decidable_of_iff (x = y) (by simp)
  | .error e, .error f => decidable_of_iff (e = f) (by simp)
  | .ok _, .error _ => isFalse (by simp)
  | .error _, .ok _ => isFalse (by simp)

example : _structure_to_g6_optimized_worker "J(a,a)" = .ok "A_" := by decide

example : _structure_to_g6_optimized_worker "U(a,a)" = .ok "A?" := by decide

example : _structure_to_g6_optimized_worker "J(a,a,a)" = .ok "Bw" := by decide

/-- C4: for every well-formed structure on `n ≤ 62` vertices, the encoder's
output line is exactly `chr(n + 63)` followed by the column-major
upper-triangle adjacency bits (column `j = 1..n-1`, rows `i = 0..j-1`),
packed six bits per byte most-significant-bit first, the final partial
group zero-padded on the right, and each packed value `v` emitted as
`chr(v + 63)`. -/
theorem C4_graph6_encoding : ∀ t : Cotree, isWF t = true → leafCount t ≤ 62 →
    _structure_to_g6_optimized_worker (serialize t) =
      .ok (String.mk (g6LineSpec t)) := by
  intro t hwf hn
  have hparse : parseStructure (serialize t) = some t :=
    parseF_serL t hwf _ (le_refl _)
  unfold _structure_to_g6_optimized_worker
  rw [hparse]
  dsimp only
  rw [if_pos hn]
  have : graph6Bytes t = g6LineSpec t := by
    unfold graph6Bytes g6LineSpec
    rw [packAcc_chunks _ _ (le_refl _)]
  rw [this]

/-- Witness for C4 at the two-leaf join `J(a,a)` (the two-vertex complete
graph, whose graph6 line is `A_`). -/
theorem C4_graph6_encoding_witness :
    isWF (Cotree.node .J [.leaf, .leaf]) = true ∧
    leafCount (Cotree.node .J [.leaf, .leaf]) ≤ 62 ∧
    _structure_to_g6_optimized_worker (serialize (Cotree.node .J [.leaf, .leaf])) =
      .ok (String.mk (g6LineSpec (Cotree.node .J [.leaf, .leaf]))) :=
  ⟨by decide, by decide, C4_graph6_encoding (Cotree.node .J [.leaf, .leaf])
    (by decide) (by decide)⟩

/-! ### The batched pipeline, `generate_cographs_final_g6` and
`generate_cographs_g6` from `src/cograph_generator/generator.py` -/

/-- File-system model: a map from path to file content (a list of lines).
`none` means the file does not exist. -/
def Fs : Type := String → Option (List String)

/-- Write (create or overwrite) a file. -/
def Fs.write (fs : Fs) (path : String) (content : List String) : Fs :=
  fun p => if p = path then some content else fs p

/-- Remove a file (`os.remove`). -/
def Fs.remove (fs : Fs) (path : String) : Fs :=
  fun p => if p = path then none else fs p

/-- Except-valued map that propagates the first failure: the model of
`pool.map`, which preserves input order and re-raises a worker's
exception, aborting the whole batch. -/
def mapE {α β ε : Type} (f : α → Except ε β) : List α → Except ε (List β)
  | [] => .ok []
  | x :: xs =>
    match f x with
    | .error e => .error e
    | .ok y =>
      match mapE f xs with
      | .error e => .error e
      | .ok ys => .ok (y :: ys)

/-- The scratch-file content of phase 1: one structure per line, produced
by the selected composer. -/
def scratchLines (node_count : Nat) (connected_only : Bool) : List String :=
  if connected_only then structures.generate_connected_cotree_structures node_count 0
  else structures.generate_all_cotree_structures node_count 0

/-- Fuel-indexed batch loop (phase 2 of `generate_cographs_final_g6`):
read `batch_size` lines, drop empty strings (end of file), stop on an
empty batch, convert the batch with the worker pool, append the results to
the output in batch order.  Returns the output lines written and the first
failure, if any; on failure nothing of the failing batch is written.  The
fuel `lines.length` suffices. -/
def runBatches (batch_size : Nat) : Nat → List String → List String × Option G6Error
  | 0, _ => ([], none)
  | fuel+1, lines =>
    let batch := (lines.take batch_size).filter fun s => decide (s ≠ "")
    if batch = [] then ([], none)
    else
      match mapE _structure_to_g6_optimized_worker batch with
      | .error e => ([], some e)
      | .ok graph6_results =>
        let res := runBatches batch_size fuel (lines.drop batch_size)
        (graph6_results ++ res.1, res.2)

/-- `generate_cographs_final_g6` from `src/cograph_generator/generator.py`:
phase 1 writes the selected composer's structures to a scratch file, phase 2
re-reads them in batches, converts each batch with a worker pool, and
appends to the output file; on success the scratch file is removed and the
output path returned.  File effects are explicit via the `Fs` model; a
worker failure propagates out (the scratch file is then not removed).
`num_processes` only sizes the pool and does not affect the result. -/
def generate_cographs_final_g6 (node_count : Nat) (output_filename : String)
    (batch_size : Nat) (num_processes : Nat) (connected_only : Bool)
    (fs : Fs) (temp_filename : String) : Fs × Except G6Error String :=
  let lines := scratchLines node_count connected_only
  let fs1 := fs.write temp_filename lines
  let res := runBatches batch_size lines.length lines
  let fs2 := fs1.write output_filename res.1
  match res.2 with
  | some e => (fs2, .error e)
  | none => (fs2.remove temp_filename, .ok output_filename)

/-- `generate_cographs_g6` from `src/cograph_generator/generator.py`:
encode the selected composer's structures with `pool.imap_unordered` and
collect the results in completion order.  The nondeterministic completion
order is modelled by the extra `arrival` parameter: position `i` of the
input is collected when `i` occurs in `arrival`; a worker failure
propagates out. -/
def generate_cographs_g6 (node_count : Nat) (connected_only : Bool)
    (num_processes : Nat) (arrival : List Nat) : Except G6Error (List String) :=
  match mapE _structure_to_g6_optimized_worker (scratchLines node_count connected_only) with
  | .error e => .error e
  | .ok results => .ok (arrival.filterMap fun i => results.get? i)

theorem mapE_ok_length {α β ε : Type} (f : α → Except ε β) :
    ∀ (xs : List α) (ys : List β), mapE f xs = .ok ys → ys.length = xs.length := by
  intro xs
  induction xs with
  | nil =>
    intro ys h
    simp only [mapE] at h
    cases h
    rfl
  | cons x xs ih =>
    intro ys h
    simp only [mapE] at h
    cases hfx : f x with
    | error e => rw [hfx] at h; cases h
    | ok y =>
      rw [hfx] at h
      cases hrest : mapE f xs with
      | error e => rw [hrest] at h; cases h
      | ok ys' =>
        rw [hrest] at h
        cases h
        simp [ih ys' hrest]

theorem mapE_ok_pointwise {α β ε : Type} (f : α → Except ε β) :
    ∀ (xs : List α) (ys : List β), mapE f xs = .ok ys →
      ∀ (k : Nat) (x : α), xs.get? k = some x →
        ∃ y, ys.get? k = some y ∧ f x = .ok y := by
  intro xs
  induction xs with
  | nil => intro ys h k x hk; simp at hk
  | cons x' xs ih =>
    intro ys h k x hk
    simp only [mapE] at h
    cases hfx : f x' with
    | error e => rw [hfx] at h; cases h
    | ok y =>
      rw [hfx] at h
      cases hrest : mapE f xs with
      | error e => rw [hrest] at h; cases h
      | ok ys' =>
        rw [hrest] at h
        cases h
        cases k with
        | zero =>
          simp only [List.get?] at hk
          cases hk
          exact ⟨y, rfl, hfx⟩
        | succ k =>
          simp only [List.get?] at hk ⊢
          exact ih ys' hrest k x hk

theorem mapE_append_ok {α β ε : Type} (f : α → Except ε β) :
    ∀ (xs ys : List α) (as bs : List β),
      mapE f xs = .ok as → mapE f ys = .ok bs →
      mapE f (xs ++ ys) = .ok (as ++ bs) := by
  intro xs
  induction xs with
  | nil =>
    intro ys as bs hxs hys
    simp only [mapE] at hxs
    cases hxs
    simpa using hys
  | cons x xs ih =>
    intro ys as bs hxs hys
    simp only [mapE] at hxs ⊢
    cases hfx : f x with
    | error e => rw [hfx] at hxs; cases hxs
    | ok y =>
      rw [hfx] at hxs
      cases hrest : mapE f xs with
      | error e => rw [hrest] at hxs; cases hxs
      | ok as' =>
        rw [hrest] at hxs
        cases hxs
        rw [show xs.append ys = xs ++ ys from rfl, ih ys as' bs hrest hys]
        rfl

theorem serialize_ne_empty (t : Cotree) : serialize t ≠ "" := fun hc =>
  serL_ne_nil t (congrArg String.data hc)

theorem applyOp_ne_empty (operator : String) (children : List String) :
    _apply_cograph_operator_structure operator children ≠ "" := by
  intro hc
  have h1 := congrArg (fun s => s.data.length) hc
  simp [_apply_cograph_operator_structure, String.data_append] at h1

theorem generate_mem_ne_empty (n d : Nat) (s : String)
    (hs : s ∈ generate_all_cotree_structures n d) : s ≠ "" := by
  rw [generate_all_cotree_structures, genSF_eq] at hs
  obtain ⟨t, _, rfl⟩ := List.mem_map.mp hs
  exact serialize_ne_empty t

theorem scratchLines_ne_empty (n : Nat) (co : Bool) : "" ∉ scratchLines n co := by
  intro hmem
  unfold scratchLines at hmem
  cases co with
  | true =>
    simp only [if_true, reduceIte] at hmem
    exact generate_mem_ne_empty n 0 "" hmem rfl
  | false =>
    simp only [Bool.false_eq_true, if_false, reduceIte,
      structures.generate_all_cotree_structures] at hmem
    rcases List.mem_append.mp hmem with hmem | hmem
    · exact generate_mem_ne_empty n 0 "" hmem rfl
    · simp only [List.mem_flatMap, List.mem_map] at hmem
      obtain ⟨p, _, comb, _, hc⟩ := hmem
      exact applyOp_ne_empty "U" comb hc

theorem runBatches_ok : ∀ (fuel batch_size : Nat) (lines written : List String),
    1 ≤ batch_size → "" ∉ lines → lines.length ≤ fuel →
    runBatches batch_size fuel lines = (written, none) →
    mapE _structure_to_g6_optimized_worker lines = .ok written := by
  intro fuel
  induction fuel with
  | zero =>
    intro bs lines written _ _ hlen hrun
    have hnil : lines = [] := List.eq_nil_of_length_eq_zero (Nat.le_zero.mp hlen)
    subst hnil
    simp only [runBatches] at hrun
    injection hrun with h1 _
    rw [← h1]
    rfl
  | succ fuel ih =>
    intro bs lines written hbs hne hlen hrun
    simp only [runBatches] at hrun
    have hfilter : (lines.take bs).filter (fun s => decide (s ≠ "")) =
        lines.take bs := by
      rw [List.filter_eq_self]
      intro a ha
      simp only [decide_eq_true_eq]
      exact fun hc => hne (hc ▸ List.mem_of_mem_take ha)
    rw [hfilter] at hrun
    cases hlines : lines with
    | nil =>
      subst hlines
      simp only [List.take_nil, if_true, reduceIte] at hrun
      injection hrun with h1 _
      rw [← h1]
      rfl
    | cons l ls =>
      subst hlines
      have htake_ne : (l :: ls).take bs ≠ [] := by
        rw [ne_eq, List.take_eq_nil_iff]
        push_neg
        exact ⟨by omega, by simp⟩
      rw [if_neg htake_ne] at hrun
      cases hmap : mapE _structure_to_g6_optimized_worker ((l :: ls).take bs) with
      | error e =>
        rw [hmap] at hrun
        have := congrArg Prod.snd hrun
        simp at this
      | ok gs =>
        rw [hmap] at hrun
        have h1 := congrArg Prod.fst hrun
        have h2 := congrArg Prod.snd hrun
        simp only at h1 h2
        have hrec : runBatches bs fuel ((l :: ls).drop bs) =
            ((runBatches bs fuel ((l :: ls).drop bs)).1, none) := by
          rw [← h2]
        have hdrop := ih bs ((l :: ls).drop bs)
          ((runBatches bs fuel ((l :: ls).drop bs)).1) hbs
          (fun hc => hne (List.mem_of_mem_drop hc))
          (by
            rw [List.length_drop]
            simp only [List.length_cons] at hlen ⊢
            omega)
          hrec
        calc mapE _structure_to_g6_optimized_worker (l :: ls)
            = mapE _structure_to_g6_optimized_worker
                ((l :: ls).take bs ++ (l :: ls).drop bs) := by
              rw [List.take_append_drop]
          _ = .ok (gs ++ (runBatches bs fuel ((l :: ls).drop bs)).1) :=
              mapE_append_ok _ _ _ _ _ hmap hdrop
          _ = .ok written := by rw [h1]

/-- C5: in streaming-to-file mode, if the run succeeds then for every
position `k` the graph6 line at position `k` of the output file is the
encoding of the structure at line `k` of the scratch file, for every
`batch_size ≥ 1` and any worker count. -/
theorem C5_stream_order :
    ∀ (node_count batch_size num_processes : Nat) (connected_only : Bool)
      (output_filename temp_filename : String) (fs : Fs),
      1 ≤ batch_size →
      temp_filename ≠ output_filename →
      (generate_cographs_final_g6 node_count output_filename batch_size
        num_processes connected_only fs temp_filename).2 = .ok output_filename →
      ∃ written : List String,
        (generate_cographs_final_g6 node_count output_filename batch_size
          num_processes connected_only fs temp_filename).1 output_filename =
          some written ∧
        written.length = (scratchLines node_count connected_only).length ∧
        ∀ (k : Nat) (s : String),
          (scratchLines node_count connected_only).get? k = some s →
          ∃ g, written.get? k = some g ∧
            _structure_to_g6_optimized_worker s = .ok g := by
  intro n bs np co out temp fs hbs hto hok
  simp only [generate_cographs_final_g6] at hok ⊢
  cases hres : (runBatches bs (scratchLines n co).length (scratchLines n co)).2 with
  | some e =>
    rw [hres] at hok
    simp at hok
  | none =>
    rw [hres] at hok
    dsimp only at hok ⊢
    have hrec : runBatches bs (scratchLines n co).length (scratchLines n co) =
        ((runBatches bs (scratchLines n co).length (scratchLines n co)).1, none) := by
      rw [← hres]
    have hmapok := runBatches_ok (scratchLines n co).length bs (scratchLines n co)
      ((runBatches bs (scratchLines n co).length (scratchLines n co)).1)
      hbs (scratchLines_ne_empty n co) (le_refl _) hrec
    refine ⟨(runBatches bs (scratchLines n co).length (scratchLines n co)).1, ?_, ?_, ?_⟩
    · show Fs.remove (Fs.write (Fs.write fs temp (scratchLines n co)) out _) temp out =
        some _
      simp only [Fs.remove, Fs.write]
      rw [if_neg (fun h => hto h.symm)]
      simp
    · exact mapE_ok_length _ _ _ hmapok
    · intro k s hk
      exact mapE_ok_pointwise _ _ _ hmapok k s hk

/-- Witness for C5: `n = 2`, connected only, batch size 1, empty initial
file system. -/
theorem C5_stream_order_witness :
    ∃ written : List String,
      (generate_cographs_final_g6 2 "out.g6" 1 8 true (fun _ => none)
        "tmp0").1 "out.g6" = some written ∧
      written.length = (scratchLines 2 true).length ∧
      ∀ (k : Nat) (s : String), (scratchLines 2 true).get? k = some s →
        ∃ g, written.get? k = some g ∧
          _structure_to_g6_optimized_worker s = .ok g :=
  C5_stream_order 2 1 8 true "out.g6" "tmp0" (fun _ => none)
    (by decide) (by decide) (by decide)

/-- C7: when the streaming run completes successfully, the scratch file has
been removed, the returned path is the requested output path, and no file
other than the scratch file and the output file is touched. -/
theorem C7_scratch_cleanup :
    ∀ (node_count batch_size num_processes : Nat) (connected_only : Bool)
      (output_filename temp_filename p : String) (fs : Fs),
      temp_filename ≠ output_filename →
      (generate_cographs_final_g6 node_count output_filename batch_size
        num_processes connected_only fs temp_filename).2 = .ok p →
      p = output_filename ∧
      (generate_cographs_final_g6 node_count output_filename batch_size
        num_processes connected_only fs temp_filename).1 temp_filename = none ∧
      ∀ q, q ≠ temp_filename → q ≠ output_filename →
        (generate_cographs_final_g6 node_count output_filename batch_size
          num_processes connected_only fs temp_filename).1 q = fs q := by
  intro n bs np co out temp p fs hto hok
  simp only [generate_cographs_final_g6] at hok ⊢
  cases hres : (runBatches bs (scratchLines n co).length (scratchLines n co)).2 with
  | some e =>
    rw [hres] at hok
    simp at hok
  | none =>
    rw [hres] at hok
    dsimp only at hok ⊢
    simp only [Except.ok.injEq] at hok
    refine ⟨hok.symm, ?_, ?_⟩
    · show Fs.remove _ temp temp = none
      simp [Fs.remove]
    · intro q hqt hqo
      show Fs.remove (Fs.write (Fs.write fs temp _) out _) temp q = fs q
      simp only [Fs.remove, Fs.write]
      rw [if_neg hqt, if_neg hqo, if_neg hqt]

/-- Witness for C7: `n = 2`, connected only, empty initial file system. -/
theorem C7_scratch_cleanup_witness :
    "out.g6" = "out.g6" ∧
    (generate_cographs_final_g6 2 "out.g6" 1 8 true (fun _ => none)
      "tmp0").1 "tmp0" = none ∧
    ∀ q, q ≠ "tmp0" → q ≠ "out.g6" →
      (generate_cographs_final_g6 2 "out.g6" 1 8 true (fun _ => none)
        "tmp0").1 q = (fun _ => (none : Option (List String))) q :=
  C7_scratch_cleanup 2 1 8 true "out.g6" "tmp0" "out.g6" (fun _ => none)
    (by decide) (by decide)

theorem mapE_error_first {α β ε : Type} (f : α → Except ε β) :
    ∀ (xs : List α) (e : ε), mapE f xs = .error e →
      ∃ (i : Nat) (x : α), xs.get? i = some x ∧ f x = .error e ∧
        ∀ j, j < i → ∃ (x' : α) (y : β), xs.get? j = some x' ∧ f x' = .ok y := by
  intro xs
  induction xs with
  | nil => intro e h; simp [mapE] at h
  | cons x xs ih =>
    intro e h
    simp only [mapE] at h
    cases hfx : f x with
    | error e' =>
      rw [hfx] at h
      injection h with he
      subst he
      exact ⟨0, x, rfl, hfx, fun j hj => absurd hj (by omega)⟩
    | ok y =>
      rw [hfx] at h
      cases hrest : mapE f xs with
      | error e' =>
        rw [hrest] at h
        injection h with he
        subst he
        obtain ⟨i, x₀, hget, herr, hbefore⟩ := ih e' hrest
        refine ⟨i + 1, x₀, hget, herr, ?_⟩
        intro j hj
        cases j with
        | zero => exact ⟨x, y, rfl, hfx⟩
        | succ j' =>
          have := hbefore j' (by omega)
          simpa using this
      | ok ys => rw [hrest] at h; cases h

theorem worker_error_offending (s : String) (e : G6Error)
    (h : _structure_to_g6_optimized_worker s = .error e) : e.offending = s := by
  unfold _structure_to_g6_optimized_worker at h
  cases hp : parseStructure s with
  | none =>
    rw [hp] at h
    injection h with he
    rw [← he]
    rfl
  | some t =>
    rw [hp] at h
    dsimp only at h
    by_cases hn : leafCount t ≤ 62
    · rw [if_pos hn] at h; cases h
    · rw [if_neg hn] at h
      injection h with he
      rw [← he]
      rfl

/-- C8: if an encoder worker fails on an item in streaming-to-file mode,
the owning batch aborts (nothing of it is written), the failure propagates
with the offending structure identified, and the output flushed for the
earlier batches remains in place unchanged. -/
theorem C8_worker_failure :
    ∀ (fuel batch_size : Nat) (lines written : List String) (e : G6Error),
      1 ≤ batch_size → "" ∉ lines → lines.length ≤ fuel →
      runBatches batch_size fuel lines = (written, some e) →
      ∃ (b i : Nat) (s : String),
        i < batch_size ∧
        lines.get? (b * batch_size + i) = some s ∧
        _structure_to_g6_optimized_worker s = .error e ∧
        e.offending = s ∧
        (∀ j, j < i → ∃ (s' g : String),
          lines.get? (b * batch_size + j) = some s' ∧
          _structure_to_g6_optimized_worker s' = .ok g) ∧
        mapE _structure_to_g6_optimized_worker
          (lines.take (b * batch_size)) = .ok written := by
  intro fuel
  induction fuel with
  | zero =>
    intro bs lines written e _ _ hlen hrun
    have hnil : lines = [] := List.eq_nil_of_length_eq_zero (Nat.le_zero.mp hlen)
    subst hnil
    simp only [runBatches] at hrun
    injection hrun with _ h2
    cases h2
  | succ fuel ih =>
    intro bs lines written e hbs hne hlen hrun
    simp only [runBatches] at hrun
    have hfilter : (lines.take bs).filter (fun s => decide (s ≠ "")) =
        lines.take bs := by
      rw [List.filter_eq_self]
      intro a ha
      simp only [decide_eq_true_eq]
      exact fun hc => hne (hc ▸ List.mem_of_mem_take ha)
    rw [hfilter] at hrun
    by_cases hnil : lines.take bs = []
    · rw [if_pos hnil] at hrun
      injection hrun with _ h2
      cases h2
    · rw [if_neg hnil] at hrun
      cases hmap : mapE _structure_to_g6_optimized_worker (lines.take bs) with
      | error e' =>
        rw [hmap] at hrun
        injection hrun with h1 h2
        injection h2 with h2
        subst h2
        obtain ⟨i, s, hget, herr, hbefore⟩ := mapE_error_first _ _ _ hmap
        have hi_lt : i < bs := by
          by_contra hc
          push_neg at hc
          have hnone : (lines.take bs).get? i = none := by
            rw [List.get?_eq_none, List.length_take]
            omega
          rw [hnone] at hget
          cases hget
        refine ⟨0, i, s, hi_lt, ?_, herr, worker_error_offending s e' herr, ?_, ?_⟩
        · rw [Nat.zero_mul, Nat.zero_add]
          rw [← List.get?_take hi_lt]
          exact hget
        · intro j hj
          obtain ⟨s', g, hgj, hok⟩ := hbefore j hj
          refine ⟨s', g, ?_, hok⟩
          rw [Nat.zero_mul, Nat.zero_add, ← List.get?_take (by omega : j < bs)]
          exact hgj
        · rw [Nat.zero_mul, List.take_zero, ← h1]
          rfl
      | ok gs =>
        rw [hmap] at hrun
        injection hrun with h1 h2
        have hrec : runBatches bs fuel (lines.drop bs) =
            ((runBatches bs fuel (lines.drop bs)).1, some e) := by
          rw [← h2]
        obtain ⟨b', i, s, hi_lt, hget, herr, hoff, hbefore, htake⟩ :=
          ih bs (lines.drop bs) ((runBatches bs fuel (lines.drop bs)).1) e hbs
            (fun hc => hne (List.mem_of_mem_drop hc))
            (by
              rw [List.length_drop]
              have hlnil : lines ≠ [] := by
                intro hc
                exact hnil (by simp [hc])
              have : 1 ≤ lines.length := by
                cases lines with
                | nil => exact absurd rfl hlnil
                | cons _ _ => simp
              omega)
            hrec
        refine ⟨b' + 1, i, s, hi_lt, ?_, herr, hoff, ?_, ?_⟩
        · rw [show (b' + 1) * bs + i = bs + (b' * bs + i) by ring,
            ← List.get?_drop]
          exact hget
        · intro j hj
          obtain ⟨s', g, hgj, hok⟩ := hbefore j hj
          refine ⟨s', g, ?_, hok⟩
          rw [show (b' + 1) * bs + j = bs + (b' * bs + j) by ring,
            ← List.get?_drop]
          exact hgj
        · rw [show (b' + 1) * bs = bs + b' * bs by ring, List.take_add, ← h1]
          exact mapE_append_ok _ _ _ _ _ hmap htake

/-- Witness for C8: batch size 1, first batch succeeds, second batch fails
on the malformed structure `"Xq"`; the first batch's line stays written. -/
theorem C8_worker_failure_witness :
    ∃ (b i : Nat) (s : String),
      i < 1 ∧
      (["J(a,a)", "Xq"] : List String).get? (b * 1 + i) = some s ∧
      _structure_to_g6_optimized_worker s = .error (.parseError "Xq") ∧
      (G6Error.parseError "Xq").offending = s ∧
      (∀ j, j < i → ∃ (s' g : String),
        (["J(a,a)", "Xq"] : List String).get? (b * 1 + j) = some s' ∧
        _structure_to_g6_optimized_worker s' = .ok g) ∧
      mapE _structure_to_g6_optimized_worker
        ((["J(a,a)", "Xq"] : List String).take (b * 1)) = .ok ["A_"] :=
  C8_worker_failure 2 1 ["J(a,a)", "Xq"] ["A_"] (.parseError "Xq")
    (by decide) (by decide) (by decide) (by decide)

theorem filterMap_get_range {α : Type} : ∀ E : List α,
    (List.range E.length).filterMap E.get? = E := by
  intro E
  induction E with
  | nil => rfl
  | cons x E ih =>
    rw [List.length_cons, List.range_succ_eq_map, List.filterMap_cons,
      List.filterMap_map]
    have hc : ((x :: E).get? ∘ Nat.succ) = E.get? := by
      funext i
      rfl
    rw [hc, ih]
    rfl

/-- C6: in in-memory mode, whenever the run succeeds the returned list is a
permutation of the per-structure encodings — one graph6 line per structure
produced by the selected composer, none duplicated, none dropped — while
the list order is the (arbitrary) completion order. -/
theorem C6_in_memory_perm :
    ∀ (node_count num_processes : Nat) (connected_only : Bool)
      (arrival : List Nat) (encodings res : List String),
      mapE _structure_to_g6_optimized_worker
        (scratchLines node_count connected_only) = .ok encodings →
      arrival.Perm (List.range encodings.length) →
      generate_cographs_g6 node_count connected_only num_processes arrival =
        .ok res →
      res.Perm encodings ∧
      encodings.length = (scratchLines node_count connected_only).length ∧
      (∀ (k : Nat) (s : String),
        (scratchLines node_count connected_only).get? k = some s →
        ∃ g, encodings.get? k = some g ∧
          _structure_to_g6_optimized_worker s = .ok g) := by
  intro n np co arrival E res hmap hperm hrun
  unfold generate_cographs_g6 at hrun
  rw [hmap] at hrun
  injection hrun with h
  subst h
  refine ⟨?_, mapE_ok_length _ _ _ hmap,
    fun k s hk => mapE_ok_pointwise _ _ _ hmap k s hk⟩
  have hp := hperm.filterMap E.get?
  rwa [filterMap_get_range] at hp

/-- Witness for C6: `n = 2`, full enumeration, completion order `[1, 0]`
(second structure finishes first). -/
theorem C6_in_memory_perm_witness :
    (["A?", "A_"] : List String).Perm ["A_", "A?"] ∧
    (["A_", "A?"] : List String).length = (scratchLines 2 false).length ∧
    (∀ (k : Nat) (s : String), (scratchLines 2 false).get? k = some s →
      ∃ g, (["A_", "A?"] : List String).get? k = some g ∧
        _structure_to_g6_optimized_worker s = .ok g) :=
  C6_in_memory_perm 2 8 false [1, 0] ["A_", "A?"] ["A?", "A_"]
    (by decide) (by decide) (by decide)

/-! ### C9: the `child_streams` binding of the composer -/

/-- The `child_streams` value materialized by `generate_all_cotree_structures`
for one partition (`generator.py` lines 53–58): the loop body executes
`child_streams.append(list(generate_all_cotree_structures(part_size, depth + 1)))`,
storing the complete child enumeration of every part of the partition
before any combination is formed. -/
def child_streams (partition : List Nat) (depth : Nat) : List (List String) :=
  partition.map fun part_size => generate_all_cotree_structures part_size (depth + 1)

/-- C9 (evidence): at `node_count = 4`, `depth = 0`, partition `[3, 1]`
(a partition the loop visits), the `child_streams` binding holds the
complete enumeration of `generate_all_cotree_structures 3 1` — all of the
child stream's structures simultaneously — contrary to the claim (and
to the function's own docstring, which says it never accumulates full
lists in RAM). -/
theorem C9_child_streams_materialized :
    [3, 1] ∈ ((_generate_all_unique_integer_partitions 4).filter
      fun p => decide (p.length ≠ 1)) ∧
    child_streams [3, 1] 0 =
      [generate_all_cotree_structures 3 1, ["a"]] ∧
    generate_all_cotree_structures 3 1 = ["U(J(a,a),a)", "U(a,a,a)"] := by
  exact ⟨by decide, rfl, by decide⟩

/-! ### `parse_cotree` from `visualization.py` -/

/-- The mutable state of `parse_cotree`: the `node_id` counter, the edge
list, and the `labels` / `is_leaf` maps (modelled as association lists in
insertion order; keys are distinct node ids). -/
structure PcState where
  node_id : Nat
  edges : List (Nat × Nat)
  labels : List (Nat × String)
  is_leaf : List (Nat × Bool)

/-- `_parse` from `visualization.py`, fuel-indexed: assign `current` the
next node id; a leaf (`"a"`) marks `is_leaf` and links to its parent;
otherwise take the operator `expr[0]`, the slice `expr[2:-1]`, split it at
top-level commas, parse each part as a child of `current`, sum the child
leaf counts, record the label and `is_leaf[current] = False`, and link to
the parent.  The input length suffices as fuel. -/
def _parse : Nat → List Char → Option Nat → PcState → Nat × PcState
  | 0, _, _, st => (0, st)
  | fuel+1, expr, parent, st =>
    let current := st.node_id
    let st0 : PcState := { st with node_id := st.node_id + 1 }
    if expr = ['a'] then
      let st1 : PcState := { st0 with is_leaf := st0.is_leaf ++ [(current, true)] }
      let st2 : PcState :=
        match parent with
        | some p => { st1 with edges := st1.edges ++ [(p, current)] }
        | none => st1
      (1, st2)
    else
      let operator := expr.headD ' '
      let inside := (expr.drop 2).dropLast
      let parts := _split_args inside
      let folded := parts.foldl (fun acc subexpr =>
        let r := _parse fuel subexpr (some current) acc.2
        (acc.1 ++ [r.1], r.2)) (([] : List Nat), st0)
      let total_leaves := folded.1.sum
      let st1 : PcState := { folded.2 with labels := folded.2.labels ++
        [(current, String.mk [operator] ++ " (" ++ toString total_leaves ++ ")")] }
      let st2 : PcState := { st1 with is_leaf := st1.is_leaf ++ [(current, false)] }
      let st3 : PcState :=
        match parent with
        | some p => { st2 with edges := st2.edges ++ [(p, current)] }
        | none => st2
      (total_leaves, st3)

/-- `parse_cotree` from `visualization.py`: parse a serialized cotree into
the edge list `(parent, child)`, the internal-node labels, and the
`is_leaf` map, node ids assigned from 1 in visit order. -/
def parse_cotree (serialized : String) :
    List (Nat × Nat) × List (Nat × String) × List (Nat × Bool) :=
  let r := _parse serialized.data.length serialized.data none ⟨1, [], [], []⟩
  (r.2.edges, r.2.labels, r.2.is_leaf)

mutual
/-- Number of nodes of a cotree. -/
def sizeT : Cotree → Nat
  | .leaf => 1
  | .node _ cs => 1 + sizeTL cs

/-- Total number of nodes of a list of cotrees. -/
def sizeTL : List Cotree → Nat
  | [] => 0
  | c :: cs => sizeT c + sizeTL cs
end

mutual
/-- The edges `parse_cotree` records for the subtree `t` whose root gets id
`root` under parent id `parent`: the children's edges (ids assigned
depth-first from `root + 1`), then the edge from the parent. -/
def treeEdges : Cotree → Nat → Option Nat → List (Nat × Nat)
  | .leaf, root, parent =>
    (match parent with | some p => [(p, root)] | none => [])
  | .node _ cs, root, parent =>
    treeEdgesL cs (root + 1) root ++
      (match parent with | some p => [(p, root)] | none => [])

/-- Edges for a child list whose first child gets id `next`, all children
of node `par`. -/
def treeEdgesL : List Cotree → Nat → Nat → List (Nat × Nat)
  | [], _, _ => []
  | c :: cs, next, par =>
    treeEdges c next (some par) ++ treeEdgesL cs (next + sizeT c) par
end

mutual
/-- The `is_leaf` entries `parse_cotree` records for the subtree `t` rooted
at id `root`: the children's entries, then the root's own entry. -/
def treeFlags : Cotree → Nat → List (Nat × Bool)
  | .leaf, root => [(root, true)]
  | .node _ cs, root => treeFlagsL cs (root + 1) ++ [(root, false)]

/-- `is_leaf` entries for a child list whose first child gets id `next`. -/
def treeFlagsL : List Cotree → Nat → List (Nat × Bool)
  | [], _ => []
  | c :: cs, next => treeFlags c next ++ treeFlagsL cs (next + sizeT c)
end

example : parse_cotree "J(U(a,a),a)" =
    ([(2, 3), (2, 4), (1, 2), (1, 5)],
     [(2, "U (2)"), (1, "J (3)")],
     [(3, true), (4, true), (2, false), (5, true), (1, false)]) := by
  decide

/-- What `_parse` does on the serialization of a well-formed cotree,
stated for a child list being folded over (the loop over `parts`). -/
theorem parse_fold (f : Nat) :
    ∀ cs : List Cotree,
      (∀ t ∈ cs, isWF t = true →
        ∀ fuel, (serL t).length ≤ fuel → ∀ parent st,
          (_parse fuel (serL t) parent st).1 = leafCount t ∧
          (_parse fuel (serL t) parent st).2.node_id = st.node_id + sizeT t ∧
          (_parse fuel (serL t) parent st).2.edges =
            st.edges ++ treeEdges t st.node_id parent ∧
          (_parse fuel (serL t) parent st).2.is_leaf =
            st.is_leaf ++ treeFlags t st.node_id ∧
          ∃ L, (_parse fuel (serL t) parent st).2.labels = st.labels ++ L) →
      (∀ t ∈ cs, isWF t = true) →
      (∀ t ∈ cs, (serL t).length ≤ f) →
      ∀ (par : Nat) (st : PcState) (counts0 : List Nat),
        ((cs.map serL).foldl (fun acc subexpr =>
          let r := _parse f subexpr (some par) acc.2
          (acc.1 ++ [r.1], r.2)) (counts0, st)).1 =
            counts0 ++ cs.map leafCount ∧
        ((cs.map serL).foldl (fun acc subexpr =>
          let r := _parse f subexpr (some par) acc.2
          (acc.1 ++ [r.1], r.2)) (counts0, st)).2.node_id =
            st.node_id + sizeTL cs ∧
        ((cs.map serL).foldl (fun acc subexpr =>
          let r := _parse f subexpr (some par) acc.2
          (acc.1 ++ [r.1], r.2)) (counts0, st)).2.edges =
            st.edges ++ treeEdgesL cs st.node_id par ∧
        ((cs.map serL).foldl (fun acc subexpr =>
          let r := _parse f subexpr (some par) acc.2
          (acc.1 ++ [r.1], r.2)) (counts0, st)).2.is_leaf =
            st.is_leaf ++ treeFlagsL cs st.node_id ∧
        ∃ L, ((cs.map serL).foldl (fun acc subexpr =>
          let r := _parse f subexpr (some par) acc.2
          (acc.1 ++ [r.1], r.2)) (counts0, st)).2.labels = st.labels ++ L := by
  intro cs
  induction cs with
  | nil =>
    intro _ _ _ par st counts0
    exact ⟨by simp, by simp [sizeTL], by simp [treeEdgesL],
      by simp [treeFlagsL], [], by simp⟩
  | cons c cs' ih =>
    intro hIH hwf hlen par st counts0
    have hc := hIH c (by simp) (hwf c (by simp)) f (hlen c (by simp)) (some par) st
    obtain ⟨hc1, hc2, hc3, hc4, Lc, hc5⟩ := hc
    simp only [List.map_cons, List.foldl_cons]
    have hrest := ih (fun t ht => hIH t (by simp [ht]))
      (fun t ht => hwf t (by simp [ht])) (fun t ht => hlen t (by simp [ht]))
      par (_parse f (serL c) (some par) st).2
      (counts0 ++ [(_parse f (serL c) (some par) st).1])
    obtain ⟨h1, h2, h3, h4, L', h5⟩ := hrest
    refine ⟨?_, ?_, ?_, ?_, ?_⟩
    · rw [h1, hc1]
      simp
    · rw [h2, hc2]
      simp only [sizeTL]
      omega
    · rw [h3, hc3, hc2]
      simp only [treeEdgesL, List.append_assoc]
    · rw [h4, hc4, hc2]
      simp only [treeFlagsL, List.append_assoc]
    · exact ⟨Lc ++ L', by rw [h5, hc5, List.append_assoc]⟩

/-- `_parse` on the serialization of a well-formed cotree with parent
`parent`, starting from state `st`: it returns the leaf count, advances
`node_id` by the subtree size, and appends exactly the structural edge and
`is_leaf` entries (plus some label entries). -/
theorem parse_ser : ∀ t : Cotree, isWF t = true →
    ∀ fuel, (serL t).length ≤ fuel → ∀ parent st,
      (_parse fuel (serL t) parent st).1 = leafCount t ∧
      (_parse fuel (serL t) parent st).2.node_id = st.node_id + sizeT t ∧
      (_parse fuel (serL t) parent st).2.edges =
        st.edges ++ treeEdges t st.node_id parent ∧
      (_parse fuel (serL t) parent st).2.is_leaf =
        st.is_leaf ++ treeFlags t st.node_id ∧
      ∃ L, (_parse fuel (serL t) parent st).2.labels = st.labels ++ L := by
  intro t
  induction t using Cotree.indOn with
  | hleaf =>
    intro _ fuel hfuel parent st
    cases fuel with
    | zero => simp [serL] at hfuel
    | succ f =>
      cases parent with
      | none =>
        refine ⟨?_, ?_, ?_, ?_, ⟨[], ?_⟩⟩ <;>
          simp [_parse, serL, leafCount, sizeT, treeEdges, treeFlags]
      | some p =>
        refine ⟨?_, ?_, ?_, ?_, ⟨[], ?_⟩⟩ <;>
          simp [_parse, serL, leafCount, sizeT, treeEdges, treeFlags]
  | hnode op cs ih =>
    intro hwf fuel hfuel parent st
    have hwf' := hwf
    simp only [isWF, Bool.and_eq_true, decide_eq_true_eq] at hwf'
    obtain ⟨hcs_ne, hwfl⟩ := hwf'
    rw [isWFL_iff] at hwfl
    rw [serL_node_length] at hfuel
    cases fuel with
    | zero => omega
    | succ f =>
      have hlen : (serLs cs).length ≤ f := by omega
      have hlenm : ∀ u ∈ cs, (serL u).length ≤ f :=
        fun u hu => (serL_mem_le cs u hu).trans hlen
      have hne_a : (op.char :: '(' :: serLs cs ++ [')'] : List Char) ≠ ['a'] := by
        intro hc
        have hl := congrArg List.length hc
        simp at hl
      have hparts : _split_args (((op.char :: '(' :: serLs cs ++ [')'] :
          List Char).drop 2).dropLast) = cs.map serL := by
        rw [show ((op.char :: '(' :: serLs cs ++ [')'] : List Char).drop 2) =
          serLs cs ++ [')'] from rfl]
        rw [List.dropLast_concat]
        exact split_args_serLs cs hcs_ne
      obtain ⟨F1, F2, F3, F4, L, F5⟩ := parse_fold f cs ih hwfl hlenm st.node_id
        { st with node_id := st.node_id + 1 } []
      refine ⟨?_, ?_, ?_, ?_, ?_⟩
      · show (_parse (f + 1) (op.char :: '(' :: serLs cs ++ [')']) parent st).1 =
          leafCount (.node op cs)
        simp only [_parse]
        rw [if_neg hne_a]
        dsimp only
        rw [hparts]
        cases parent <;>
          simp [F1, leafCount, leafCountL_eq_sum]
      · show (_parse (f + 1) (op.char :: '(' :: serLs cs ++ [')']) parent st).2.node_id =
          st.node_id + sizeT (.node op cs)
        simp only [_parse]
        rw [if_neg hne_a]
        dsimp only
        rw [hparts]
        cases parent <;>
          · simp [F2, sizeT]
            omega
      · show (_parse (f + 1) (op.char :: '(' :: serLs cs ++ [')']) parent st).2.edges =
          st.edges ++ treeEdges (.node op cs) st.node_id parent
        simp only [_parse]
        rw [if_neg hne_a]
        dsimp only
        rw [hparts]
        cases parent <;>
          simp [F3, treeEdges]
      · show (_parse (f + 1) (op.char :: '(' :: serLs cs ++ [')']) parent st).2.is_leaf =
          st.is_leaf ++ treeFlags (.node op cs) st.node_id
        simp only [_parse]
        rw [if_neg hne_a]
        dsimp only
        rw [hparts]
        cases parent <;>
          simp [F4, treeFlags]
      · show ∃ L', (_parse (f + 1) (op.char :: '(' :: serLs cs ++ [')'])
          parent st).2.labels = st.labels ++ L'
        simp only [_parse]
        rw [if_neg hne_a]
        dsimp only
        rw [hparts]
        cases parent <;> exact ⟨_, by simp [F5]; exact rfl⟩

theorem sizeT_pos : ∀ t : Cotree, 1 ≤ sizeT t := by
  intro t
  cases t with
  | leaf => simp [sizeT]
  | node op cs => simp [sizeT]

/-- The number of `is_leaf = True` entries recorded for a subtree equals
its leaf count. -/
theorem treeFlags_count : ∀ t : Cotree, ∀ root : Nat,
    ((treeFlags t root).filter fun e => e.2).length = leafCount t := by
  intro t
  induction t using Cotree.indOn with
  | hleaf => intro root; rfl
  | hnode op cs ih =>
    intro root
    simp only [treeFlags, List.filter_append, List.length_append, leafCount]
    have hlist : ∀ (cs' : List Cotree),
        (∀ c ∈ cs', ∀ r, ((treeFlags c r).filter fun e => e.2).length = leafCount c) →
        ∀ next, ((treeFlagsL cs' next).filter fun e => e.2).length = leafCountL cs' := by
      intro cs'
      induction cs' with
      | nil => intro _ next; rfl
      | cons c cs'' ihl =>
        intro hm next
        simp only [treeFlagsL, List.filter_append, List.length_append, leafCountL]
        rw [hm c (by simp) next, ihl (fun c hc r => hm c (by simp [hc]) r) (next + sizeT c)]
    rw [hlist cs ih (root + 1)]
    simp

/-- The number of `a` tokens in a serialized cotree equals its leaf
count. -/
theorem countA_serL : ∀ t : Cotree, (serL t).count 'a' = leafCount t := by
  intro t
  induction t using Cotree.indOn with
  | hleaf => rfl
  | hnode op cs ih =>
    have hlist : ∀ (cs' : List Cotree),
        (∀ c ∈ cs', (serL c).count 'a' = leafCount c) →
        (serLs cs').count 'a' = leafCountL cs' := by
      intro cs'
      induction cs' with
      | nil => intro _; rfl
      | cons c cs'' ihl =>
        intro hm
        cases cs'' with
        | nil =>
          rw [serLs_single]
          simp only [leafCountL, leafCount]
          rw [hm c (by simp)]
          simp [leafCountL]
        | cons c' cs''' =>
          rw [serLs_cons₂, List.count_append, List.count_cons]
          rw [hm c (by simp), ihl (fun x hx => hm x (by simp [hx]))]
          simp only [leafCountL]
          have : (',' == 'a') = false := by decide
          simp [this]
    simp only [serL, List.count_cons, List.count_append]
    rw [hlist cs ih]
    have h1 : (op.char == 'a') = false := by cases op <;> decide
    have h2 : ('(' == 'a') = false := by decide
    have h3 : (')' == 'a') = false := by decide
    simp [h1, h2, h3, leafCount, List.count_cons]

/-- Bounds on the edges recorded for a child list: both endpoints are
positive, each edge points from a smaller id to a larger one, and all child
ids lie in the block `[next, next + sizeTL cs)`. -/
theorem treeEdgesL_bounds_aux :
    ∀ cs' : List Cotree,
      (∀ t ∈ cs', ∀ (root : Nat) (parent : Option Nat),
        1 ≤ root → (∀ p, parent = some p → 1 ≤ p ∧ p < root) →
        ∀ e ∈ treeEdges t root parent,
          1 ≤ e.1 ∧ e.1 < e.2 ∧ root ≤ e.2 ∧ e.2 < root + sizeT t) →
      ∀ (next par : Nat), 1 ≤ par → par < next →
        ∀ e ∈ treeEdgesL cs' next par,
          1 ≤ e.1 ∧ e.1 < e.2 ∧ next ≤ e.2 ∧ e.2 < next + sizeTL cs' := by
  intro cs'
  induction cs' with
  | nil => intro _ next par _ _ e he; simp [treeEdgesL] at he
  | cons c cs'' ih =>
    intro hm next par hpar hlt e he
    simp only [treeEdgesL, List.mem_append] at he
    rcases he with he | he
    · have := hm c (by simp) next (some par) (by omega)
        (fun p hp => by cases hp; exact ⟨hpar, hlt⟩) e he
      refine ⟨this.1, this.2.1, this.2.2.1, ?_⟩
      have hp := sizeT_pos c
      simp only [sizeTL]
      omega
    · have := ih (fun t ht => hm t (by simp [ht])) (next + sizeT c) par hpar
        (by have := sizeT_pos c; omega) e he
      have hp := sizeT_pos c
      simp only [sizeTL]
      refine ⟨this.1, this.2.1, by omega, by omega⟩

/-- Bounds on the edges recorded for a subtree. -/
theorem treeEdges_bounds : ∀ t : Cotree, ∀ (root : Nat) (parent : Option Nat),
    1 ≤ root → (∀ p, parent = some p → 1 ≤ p ∧ p < root) →
    ∀ e ∈ treeEdges t root parent,
      1 ≤ e.1 ∧ e.1 < e.2 ∧ root ≤ e.2 ∧ e.2 < root + sizeT t := by
  intro t
  induction t using Cotree.indOn with
  | hleaf =>
    intro root parent hroot hparent e he
    cases parent with
    | none => simp [treeEdges] at he
    | some p =>
      simp only [treeEdges, List.mem_singleton] at he
      subst he
      obtain ⟨h1, h2⟩ := hparent p rfl
      exact ⟨h1, h2, le_refl _, by simp [sizeT]⟩
  | hnode op cs ih =>
    intro root parent hroot hparent e he
    simp only [treeEdges, List.mem_append] at he
    rcases he with he | he
    · have := treeEdgesL_bounds_aux cs ih (root + 1) root hroot (by omega) e he
      refine ⟨this.1, this.2.1, by omega, ?_⟩
      simp only [sizeT]
      omega
    · cases parent with
      | none => simp at he
      | some p =>
        simp only [List.mem_singleton] at he
        subst he
        obtain ⟨h1, h2⟩ := hparent p rfl
        have := sizeT_pos (Cotree.node op cs)
        exact ⟨h1, h2, le_refl _, by omega⟩

/-- Bounds for a child list, with no extra hypotheses. -/
theorem treeEdgesL_bounds : ∀ (cs : List Cotree) (next par : Nat),
    1 ≤ par → par < next →
    ∀ e ∈ treeEdgesL cs next par,
      1 ≤ e.1 ∧ e.1 < e.2 ∧ next ≤ e.2 ∧ e.2 < next + sizeTL cs :=
  fun cs next par hpar hlt e he =>
    treeEdgesL_bounds_aux cs (fun t _ => treeEdges_bounds t) next par hpar hlt e he

theorem filter_len_zero_of_bounds {e : Nat} (l : List (Nat × Nat)) (c : Nat)
    (h : ∀ x ∈ l, x.2 ≠ c) :
    ((l.filter fun x => decide (x.2 = c)).length = 0) := by
  have : l.filter (fun x => decide (x.2 = c)) = [] := by
    rw [List.filter_eq_nil]
    intro a ha
    simp only [decide_eq_true_eq]
    exact h a ha
  rw [this]
  rfl

/-- For a child list: every id in the block `[next, next + sizeTL cs)` is
the target of exactly one recorded edge. -/
theorem treeEdgesL_count_aux :
    ∀ cs' : List Cotree,
      (∀ t ∈ cs', ∀ (root p c : Nat), 1 ≤ p → p < root → root ≤ c →
        c < root + sizeT t →
        ((treeEdges t root (some p)).filter fun e => decide (e.2 = c)).length = 1) →
      ∀ (next par c : Nat), 1 ≤ par → par < next → next ≤ c →
        c < next + sizeTL cs' →
        ((treeEdgesL cs' next par).filter fun e => decide (e.2 = c)).length = 1 := by
  intro cs'
  induction cs' with
  | nil =>
    intro _ next par c _ _ h1 h2
    simp only [sizeTL] at h2
    omega
  | cons c0 cs'' ih =>
    intro hm next par c hpar hlt hc1 hc2
    simp only [treeEdgesL, List.filter_append, List.length_append]
    simp only [sizeTL] at hc2
    by_cases hin : c < next + sizeT c0
    · rw [hm c0 (by simp) next par c hpar hlt hc1 hin]
      have hz : ((treeEdgesL cs'' (next + sizeT c0) par).filter
          fun e => decide (e.2 = c)).length = 0 := by
        refine filter_len_zero_of_bounds (e := 0) _ _ ?_
        intro x hx
        have := treeEdgesL_bounds cs'' (next + sizeT c0) par hpar
          (by have := sizeT_pos c0; omega) x hx
        omega
      rw [hz]
    · push_neg at hin
      have hz : ((treeEdges c0 next (some par)).filter
          fun e => decide (e.2 = c)).length = 0 := by
        refine filter_len_zero_of_bounds (e := 0) _ _ ?_
        intro x hx
        have := treeEdges_bounds c0 next (some par) (by omega)
          (fun p hp => by cases hp; exact ⟨hpar, hlt⟩) x hx
        omega
      rw [hz]
      rw [ih (fun t ht => hm t (by simp [ht])) (next + sizeT c0) par c hpar
        (by have := sizeT_pos c0; omega) hin (by omega)]

/-- For a subtree with a parent: every id in `[root, root + sizeT t)` is
the target of exactly one recorded edge. -/
theorem treeEdges_count_one : ∀ t : Cotree, ∀ (root p c : Nat),
    1 ≤ p → p < root → root ≤ c → c < root + sizeT t →
    ((treeEdges t root (some p)).filter fun e => decide (e.2 = c)).length = 1 := by
  intro t
  induction t using Cotree.indOn with
  | hleaf =>
    intro root p c hp hlt hc1 hc2
    simp only [sizeT] at hc2
    have hcr : c = root := by omega
    subst hcr
    simp [treeEdges]
  | hnode op cs ih =>
    intro root p c hp hlt hc1 hc2
    simp only [treeEdges, List.filter_append, List.length_append]
    simp only [sizeT] at hc2
    by_cases hcr : c = root
    · subst hcr
      have hz : ((treeEdgesL cs (c + 1) c).filter
          fun e => decide (e.2 = c)).length = 0 := by
        refine filter_len_zero_of_bounds (e := 0) _ _ ?_
        intro x hx
        have := treeEdgesL_bounds cs (c + 1) c (by omega) (by omega) x hx
        omega
      rw [hz]
      simp
    · have hone := treeEdgesL_count_aux cs ih (root + 1) root c (by omega)
        (by omega) (by omega) (by omega)
      rw [hone]
      have : ((root, c) : Nat × Nat).2 = c := rfl
      simp [hcr]
      omega

/-- For a subtree at the global root (`parent = None`): every id strictly
greater than the root id, within the subtree's block, is the target of
exactly one recorded edge. -/
theorem treeEdges_root_count : ∀ t : Cotree, ∀ (root c : Nat),
    1 ≤ root → root < c → c < root + sizeT t →
    ((treeEdges t root none).filter fun e => decide (e.2 = c)).length = 1 := by
  intro t root c hroot hc1 hc2
  cases t with
  | leaf =>
    simp only [sizeT] at hc2
    omega
  | node op cs =>
    simp only [treeEdges, List.filter_append, List.length_append]
    simp only [sizeT] at hc2
    rw [treeEdgesL_count_aux cs
      (fun t _ root p c h1 h2 h3 h4 => treeEdges_count_one t root p c h1 h2 h3 h4)
      (root + 1) root c hroot (by omega) (by omega) (by omega)]
    rfl

/-- C10: for every well-formed canonical structure string (the
serialization of a well-formed cotree, grammar `a | J(...) | U(...)`),
`parse_cotree` returns an edge list forming a tree rooted at node id 1
covering every assigned node id — ids `1 .. sizeT t` are assigned, every
edge goes from a smaller id to a larger one within that range, every id
except 1 is the child of exactly one edge and id 1 of none — and the
number of node ids marked as leaves equals the number of `a` tokens of the
input. -/
theorem C10_parse_cotree : ∀ t : Cotree, isWF t = true →
    ((parse_cotree (serialize t)).2.2.filter fun e => e.2).length =
      ((serialize t).data.count 'a') ∧
    (∀ e ∈ (parse_cotree (serialize t)).1,
      1 ≤ e.1 ∧ e.1 < e.2 ∧ e.2 ≤ sizeT t) ∧
    (∀ c, 2 ≤ c → c ≤ sizeT t →
      ((parse_cotree (serialize t)).1.filter
        fun e => decide (e.2 = c)).length = 1) ∧
    ((parse_cotree (serialize t)).1.filter
      fun e => decide (e.2 = 1)).length = 0 ∧
    (_parse (serialize t).data.length (serialize t).data none
      ⟨1, [], [], []⟩).2.node_id = 1 + sizeT t := by
  intro t hwf
  obtain ⟨H1, H2, H3, H4, L, H5⟩ :=
    parse_ser t hwf (serL t).length (le_refl _) none ⟨1, [], [], []⟩
  have hedges : (parse_cotree (serialize t)).1 = treeEdges t 1 none := by
    show (_parse (serL t).length (serL t) none ⟨1, [], [], []⟩).2.edges = _
    rw [H3]
    rfl
  have hflags : (parse_cotree (serialize t)).2.2 = treeFlags t 1 := by
    show (_parse (serL t).length (serL t) none ⟨1, [], [], []⟩).2.is_leaf = _
    rw [H4]
    rfl
  refine ⟨?_, ?_, ?_, ?_, ?_⟩
  · rw [hflags, treeFlags_count t 1]
    exact (countA_serL t).symm
  · intro e he
    rw [hedges] at he
    have := treeEdges_bounds t 1 none (by omega) (fun p hp => by cases hp) e he
    exact ⟨this.1, this.2.1, by omega⟩
  · intro c hc1 hc2
    rw [hedges]
    exact treeEdges_root_count t 1 c (by omega) (by omega) (by omega)
  · rw [hedges]
    refine filter_len_zero_of_bounds (e := 0) _ _ ?_
    intro x hx
    have := treeEdges_bounds t 1 none (by omega) (fun p hp => by cases hp) x hx
    omega
  · show (_parse (serL t).length (serL t) none ⟨1, [], [], []⟩).2.node_id = _
    rw [H2]

/-- Witness for C10 at the structure `J(U(a,a),a)`. -/
theorem C10_parse_cotree_witness :
    ((parse_cotree (serialize (Cotree.node .J [.node .U [.leaf, .leaf], .leaf]))).2.2.filter
      fun e => e.2).length =
      ((serialize (Cotree.node .J [.node .U [.leaf, .leaf], .leaf])).data.count 'a') ∧
    (∀ e ∈ (parse_cotree (serialize (Cotree.node .J [.node .U [.leaf, .leaf], .leaf]))).1,
      1 ≤ e.1 ∧ e.1 < e.2 ∧
        e.2 ≤ sizeT (Cotree.node .J [.node .U [.leaf, .leaf], .leaf])) ∧
    (∀ c, 2 ≤ c → c ≤ sizeT (Cotree.node .J [.node .U [.leaf, .leaf], .leaf]) →
      ((parse_cotree (serialize (Cotree.node .J [.node .U [.leaf, .leaf], .leaf]))).1.filter
        fun e => decide (e.2 = c)).length = 1) ∧
    ((parse_cotree (serialize (Cotree.node .J [.node .U [.leaf, .leaf], .leaf]))).1.filter
      fun e => decide (e.2 = 1)).length = 0 ∧
    (_parse (serialize (Cotree.node .J [.node .U [.leaf, .leaf], .leaf])).data.length
      (serialize (Cotree.node .J [.node .U [.leaf, .leaf], .leaf])).data none
      ⟨1, [], [], []⟩).2.node_id =
      1 + sizeT (Cotree.node .J [.node .U [.leaf, .leaf], .leaf]) :=
  C10_parse_cotree (Cotree.node .J [.node .U [.leaf, .leaf], .leaf]) (by decide)
